import Mathlib

/-!
# Verification of the MLB players registry build engine

Shallow embedding of `src/registry/mlb/build_players_registry.py`:
JSON/Python-like values, dotted-path field resolution, fieldset expansion,
the intermediate (join) builder, product projection and pivot grouping,
together with theorems checking the specification's claims against it.
-/

namespace Registry

/-- Python/JSON-like runtime values: `None`, booleans, integers, strings,
lists and (insertion-ordered) dictionaries with string keys.
(Floats never appear in the claims under study and are omitted.) -/
inductive Val where
  | vnull : Val
  | vbool : Bool → Val
  | vint : Int → Val
  | vstr : String → Val
  | vlist : List Val → Val
  | vdict : List (String × Val) → Val
deriving Repr

def Val.decEq : (a b : Val) → Decidable (a = b)
  | .vnull, .vnull => isTrue rfl
  | .vbool a, .vbool b =>
    match Bool.decEq a b with
    | isTrue h => isTrue (by rw [h])
    | isFalse h => isFalse (fun hc => h (Val.vbool.inj hc))
  | .vint a, .vint b =>
    match Int.decEq a b with
    | isTrue h => isTrue (by rw [h])
    | isFalse h => isFalse (fun hc => h (Val.vint.inj hc))
  | .vstr a, .vstr b =>
    match String.decEq a b with
    | isTrue h => isTrue (by rw [h])
    | isFalse h => isFalse (fun hc => h (Val.vstr.inj hc))
  | .vlist a, .vlist b =>
    match decEqList a b with
    | isTrue h => isTrue (by rw [h])
    | isFalse h => isFalse (fun hc => h (Val.vlist.inj hc))
  | .vdict a, .vdict b =>
    match decEqDict a b with
    | isTrue h => isTrue (by rw [h])
    | isFalse h => isFalse (fun hc => h (Val.vdict.inj hc))
  | .vnull, .vbool _ => isFalse (fun h => Val.noConfusion h)
  | .vnull, .vint _ => isFalse (fun h => Val.noConfusion h)
  | .vnull, .vstr _ => isFalse (fun h => Val.noConfusion h)
  | .vnull, .vlist _ => isFalse (fun h => Val.noConfusion h)
  | .vnull, .vdict _ => isFalse (fun h => Val.noConfusion h)
  | .vbool _, .vnull => isFalse (fun h => Val.noConfusion h)
  | .vbool _, .vint _ => isFalse (fun h => Val.noConfusion h)
  | .vbool _, .vstr _ => isFalse (fun h => Val.noConfusion h)
  | .vbool _, .vlist _ => isFalse (fun h => Val.noConfusion h)
  | .vbool _, .vdict _ => isFalse (fun h => Val.noConfusion h)
  | .vint _, .vnull => isFalse (fun h => Val.noConfusion h)
  | .vint _, .vbool _ => isFalse (fun h => Val.noConfusion h)
  | .vint _, .vstr _ => isFalse (fun h => Val.noConfusion h)
  | .vint _, .vlist _ => isFalse (fun h => Val.noConfusion h)
  | .vint _, .vdict _ => isFalse (fun h => Val.noConfusion h)
  | .vstr _, .vnull => isFalse (fun h => Val.noConfusion h)
  | .vstr _, .vbool _ => isFalse (fun h => Val.noConfusion h)
  | .vstr _, .vint _ => isFalse (fun h => Val.noConfusion h)
  | .vstr _, .vlist _ => isFalse (fun h => Val.noConfusion h)
  | .vstr _, .vdict _ => isFalse (fun h => Val.noConfusion h)
  | .vlist _, .vnull => isFalse (fun h => Val.noConfusion h)
  | .vlist _, .vbool _ => isFalse (fun h => Val.noConfusion h)
  | .vlist _, .vint _ => isFalse (fun h => Val.noConfusion h)
  | .vlist _, .vstr _ => isFalse (fun h => Val.noConfusion h)
  | .vlist _, .vdict _ => isFalse (fun h => Val.noConfusion h)
  | .vdict _, .vnull => isFalse (fun h => Val.noConfusion h)
  | .vdict _, .vbool _ => isFalse (fun h => Val.noConfusion h)
  | .vdict _, .vint _ => isFalse (fun h => Val.noConfusion h)
  | .vdict _, .vstr _ => isFalse (fun h => Val.noConfusion h)
  | .vdict _, .vlist _ => isFalse (fun h => Val.noConfusion h)
where
  decEqList : (a b : List Val) → Decidable (a = b)
    | [], [] => isTrue rfl
    | [], _ :: _ => isFalse (fun h => List.noConfusion h)
    | _ :: _, [] => isFalse (fun h => List.noConfusion h)
    | x :: xs, y :: ys =>
      match Val.decEq x y, decEqList xs ys with
      | isTrue h1, isTrue h2 => isTrue (by rw [h1, h2])
      | isFalse h1, _ => isFalse (fun hc => h1 (List.cons.inj hc).1)
      | isTrue _, isFalse h2 => isFalse (fun hc => h2 (List.cons.inj hc).2)
  decEqDict : (a b : List (String × Val)) → Decidable (a = b)
    | [], [] => isTrue rfl
    | [], _ :: _ => isFalse (fun h => List.noConfusion h)
    | _ :: _, [] => isFalse (fun h => List.noConfusion h)
    | (k1, v1) :: xs, (k2, v2) :: ys =>
      match String.decEq k1 k2, Val.decEq v1 v2, decEqDict xs ys with
      | isTrue h1, isTrue h2, isTrue h3 => isTrue (by rw [h1, h2, h3])
      | isFalse h1, _, _ =>
        isFalse (fun hc => h1 (Prod.mk.inj (List.cons.inj hc).1).1)
      | isTrue _, isFalse h2, _ =>
        isFalse (fun hc => h2 (Prod.mk.inj (List.cons.inj hc).1).2)
      | isTrue _, isTrue _, isFalse h3 =>
        isFalse (fun hc => h3 (List.cons.inj hc).2)

instance : DecidableEq Val := Val.decEq

/-- A flat record: an insertion-ordered dictionary, as an association list. -/
abbrev Row := List (String × Val)

/-- Python truthiness for our value type: `None`, `False`, `0`, `""`,
`[]` and `{}` are falsy, everything else truthy. -/
def Val.truthy : Val → Bool
  | .vnull => false
  | .vbool b => b
  | .vint n => n != 0
  | .vstr s => s != ""
  | .vlist l => !l.isEmpty
  | .vdict d => !d.isEmpty

/-- First-match lookup in an association list (Python `d.get(k)` on a
dict; dict keys are unique, so the first match is the match). -/
def alookup {α β : Type} [DecidableEq α] : List (α × β) → α → Option β
  | [], _ => none
  | (k, v) :: rest, key => if k = key then some v else alookup rest key

/-- Python `d[k] = v` on a dict: update in place if the key exists
(keeping its position), else append at the end. -/
def aset {α β : Type} [DecidableEq α] : List (α × β) → α → β → List (α × β)
  | [], key, v => [(key, v)]
  | (k, w) :: rest, key, v =>
    if k = key then (key, v) :: rest else (k, w) :: aset rest key v

theorem alookup_aset_self {α β : Type} [DecidableEq α]
    (l : List (α × β)) (key : α) (v : β) :
    alookup (aset l key v) key = some v := by
  induction l with
  | nil => simp [aset, alookup]
  | cons kv rest ih =>
    obtain ⟨k, w⟩ := kv
    by_cases h : k = key
    · simp [aset, alookup, h]
    · simp [aset, alookup, h, ih]

theorem alookup_aset_other {α β : Type} [DecidableEq α]
    (l : List (α × β)) (key key' : α) (v : β) (hne : key' ≠ key) :
    alookup (aset l key v) key' = alookup l key' := by
  induction l with
  | nil => simp [aset, alookup, Ne.symm hne]
  | cons kv rest ih =>
    obtain ⟨k, w⟩ := kv
    by_cases h : k = key
    · subst h
      simp [aset, alookup, Ne.symm hne]
    · by_cases h' : k = key'
      · subst h'
        simp [aset, alookup, h]
      · simp [aset, alookup, h, h', ih]

/-! ## Field resolution (`get_nested`, `transform_field`, `transform_record`) -/

/-- Split a character list on a separator character; like Python
`str.split(sep)` the result is never empty and empty segments are kept. -/
def splitOnChar (sep : Char) : List Char → List (List Char)
  | [] => [[]]
  | c :: rest =>
    let r := splitOnChar sep rest
    if c = sep then [] :: r
    else
      match r with
      | [] => [[c]]
      | g :: gs => (c :: g) :: gs

/-- Python `path.split(".")`. -/
def pySplitDot (s : String) : List String :=
  (splitOnChar '.' s.data).map String.mk

/-- Python `str.strip()`: remove leading and trailing whitespace. -/
def pyStrip (s : String) : String :=
  String.mk
    (((s.data.dropWhile Char.isWhitespace).reverse.dropWhile
        Char.isWhitespace).reverse)

/-- One iteration of the loop body `data = data.get(key, {})` in
`get_nested`: when `data` is not a dict Python raises `AttributeError`,
modelled as `none`. -/
def getStep : Val → String → Option Val
  | .vdict d, key => some ((alookup d key).getD (.vdict []))
  | _, _ => none

/-- The value reached after walking every component of the dotted path,
before the final truthiness normalization (`none` = Python exception). -/
def rawNested (data : Val) (path : String) : Option Val :=
  (pySplitDot path).foldlM getStep data

/-- `get_nested(data, path)`: walk the dotted path with `.get(key, {})`
at each step, then `return data if data else None`. -/
def get_nested (data : Val) (path : String) : Option Val :=
  match rawNested data path with
  | none => none
  | some r => some (if r.truthy then r else .vnull)

/-- A mapping rule's `src`: either a single dotted path (a YAML string)
or an ordered list of dotted paths. -/
inductive Src where
  | single : String → Src
  | multi : List String → Src
deriving Repr, DecidableEq

/-- Loop of `transform_field` over a path list: return the first truthy
resolved value; after an exhausted loop Python returns the last bound
`value`, so the last path's resolved value is returned whether or not it
is truthy. An empty list leaves `value` unbound (`NameError`): `none`. -/
def transform_field_loop (intermediate : Val) : List String → Option Val
  | [] => none
  | [p] => get_nested intermediate p
  | p :: ps =>
    match get_nested intermediate p with
    | none => none
    | some v => if v.truthy then some v else transform_field_loop intermediate ps

/-- `transform_field(intermediate, sources)`. -/
def transform_field (intermediate : Val) : Src → Option Val
  | .single p => get_nested intermediate p
  | .multi ps => transform_field_loop intermediate ps

/-- One declared output-field mapping rule `{dest, src}`. -/
structure MappingRule where
  dest : String
  src : Src
deriving Repr, DecidableEq

/-- `transform_record`: the dict comprehension
`{m["dest"]: transform_field(intermediate, m["src"]) for m in mapping}`;
a later rule with a duplicate `dest` overwrites the earlier entry. -/
def transform_record (intermediate : Val) (mapping : List MappingRule) :
    Option Row :=
  mapping.foldlM
    (fun acc m => (transform_field intermediate m.src).map (aset acc m.dest)) []

/-- Body of the `transform_records` loop for one intermediate:
`output = dict(intermediate["crosswalk"]); output.update(transform_record(...))`.
`none` models the Python exceptions (missing or non-dict `"crosswalk"`
slot, or a resolver error). -/
def output_for (inter : Row) (mappings : List MappingRule) : Option Row :=
  match alookup inter "crosswalk" with
  | some (.vdict c) =>
    match transform_record (.vdict inter) mappings with
    | some pairs => some (pairs.foldl (fun acc kv => aset acc kv.1 kv.2) c)
    | none => none
  | _ => none

/-- `transform_records`: one output record per intermediate, in
iteration order of the intermediates. -/
def transform_records (intermediates : List (Val × Row))
    (mappings : List MappingRule) : Option (List Row) :=
  intermediates.mapM (fun kv => output_for kv.2 mappings)

/-! ## Fieldsets (`parse_fieldsets`, `parse_product_fields`) -/

/-- `list(dict.fromkeys(v))`: remove duplicates, keeping the first
occurrence of each element. -/
def dedupFirstAux {α : Type} [DecidableEq α] (seen : List α) :
    List α → List α
  | [] => []
  | x :: xs =>
    if x ∈ seen then dedupFirstAux seen xs else x :: dedupFirstAux (x :: seen) xs

def dedupFirst {α : Type} [DecidableEq α] (l : List α) : List α :=
  dedupFirstAux [] l

/-- A raw fieldset definition: direct `fields` and referenced
`fieldsets` (each defaulting to `[]` when absent). -/
structure FieldsetDef where
  fields : List String
  fieldsets : List String
deriving Repr, DecidableEq

/-- One `fieldsets[name].extend(fieldsets[src])` step of the second
pass of `parse_fieldsets`; an unknown reference is a Python `KeyError`,
modelled as `none`. -/
def fieldsets_extend (name : String) (st : List (String × List String))
    (src : String) : Option (List (String × List String)) :=
  match alookup st src, alookup st name with
  | some srcFields, some cur => some (aset st name (cur ++ srcFields))
  | _, _ => none

/-- Second pass of `parse_fieldsets`: for each input fieldset in
declared order, extend its entry with each referenced fieldset's
expansion state current at that point. -/
def fieldsets_pass2 (state : List (String × List String)) :
    List (String × FieldsetDef) → Option (List (String × List String))
  | [] => some state
  | (name, fs) :: rest =>
    match fs.fieldsets.foldlM (fieldsets_extend name) state with
    | some st => fieldsets_pass2 st rest
    | none => none

/-- `parse_fieldsets(registry)`: collect each fieldset's direct fields,
then append referenced fieldsets' current expansions in one pass, then
dedup each list preserving first occurrence. -/
def parse_fieldsets (input : List (String × FieldsetDef)) :
    Option (List (String × List String)) :=
  match fieldsets_pass2
      (input.foldl (fun acc nfs => aset acc nfs.1 nfs.2.fields) []) input with
  | some expanded => some (expanded.map (fun nv => (nv.1, dedupFirst nv.2)))
  | none => none

/-- One pivot field spec: `field`, optional `subfield`, output `name`,
`is_array` (default `True`) and `null_key` (default `None`, held as a
`Val` so `vnull` is the absent default exactly as in Python). -/
structure PivotField where
  field : String
  subfield : Option String
  name : String
  is_array : Bool
  null_key : Val
deriving Repr, DecidableEq

/-- A resolved pivot block: its `name` and its list of field specs. -/
structure Pivot where
  name : String
  fields : List PivotField
deriving Repr, DecidableEq

/-- A product's pivot entry: a string naming a shared pivot, an inline
dict, or any other shape (which `resolve_pivot_spec` rejects). -/
inductive PivotSpec where
  | ref : String → PivotSpec
  | inline : Pivot → PivotSpec
  | malformed : PivotSpec
deriving Repr, DecidableEq

/-- A product definition: referenced `fieldsets`, extra `fields`, and
`pivots` (each defaulting to `[]` when absent). -/
structure Product where
  fieldsets : List String
  fields : List String
  pivots : List PivotSpec
deriving Repr, DecidableEq

/-- `parse_product_fields(product, fieldsets)`: `[]` for a falsy product
(`none` here); otherwise each referenced fieldset's expanded fields in
order (`KeyError` → `none` on an unknown name), then the product's own
fields, deduplicated keeping first occurrence. -/
def parse_product_fields (product : Option Product)
    (fieldsets : List (String × List String)) : Option (List String) :=
  match product with
  | none => some []
  | some p =>
    match p.fieldsets.mapM (alookup fieldsets) with
    | some fsLists => some (dedupFirst (fsLists.flatten ++ p.fields))
    | none => none

/-! ## Projection and nesting (`nest_fields`, `filter_and_nest_row`) -/

/-- Insert a value at a dotted-path key into a nested dict, the loop
body of `nest_fields`. `current.setdefault(part, {})` descends into an
existing entry only when it is a dict; when an intermediate entry holds
a non-dict Python raises on the next attribute access or subscript,
modelled as `none`. The final path segment is a plain assignment. -/
def nestInsert : Row → List String → Val → Option Row
  | d, [last], v => some (aset d last v)
  | d, part :: rest, v =>
    match alookup d part with
    | some (.vdict sub) =>
      (nestInsert sub rest v).map (fun sub2 => aset d part (.vdict sub2))
    | some _ => none
    | none => (nestInsert [] rest v).map (fun sub2 => aset d part (.vdict sub2))
  | _, [], _ => none

/-- `nest_fields(flat_row)`: fold every dotted key of the flat row into
a nested dict. (`pySplitDot` is never empty, so the `[]` case of
`nestInsert` is unreachable.) -/
def nest_fields (flat : Row) : Option Row :=
  flat.foldlM (fun acc kv => nestInsert acc (pySplitDot kv.1) kv.2) []

/-- `filter_and_nest_row(row, fields)`:
`nest_fields({f: row.get(f, None) for f in fields})`. -/
def filter_and_nest_row (row : Row) (fields : List String) : Option Row :=
  nest_fields
    (fields.foldl (fun acc f => aset acc f ((alookup row f).getD .vnull)) [])

/-! ## Pivot builder (`write_pivot`) -/

/-- Python hashability: lists and dicts cannot be dict keys. -/
def Val.hashable : Val → Bool
  | .vlist _ => false
  | .vdict _ => false
  | _ => true

/-- Python `str()` of a hashable scalar, as used for the top-level sort
key of a pivot. (Lists and dicts are unhashable, hence never pivot
keys; their branch is unreachable.) -/
def pyStr : Val → String
  | .vnull => "None"
  | .vbool true => "True"
  | .vbool false => "False"
  | .vint n => toString n
  | .vstr s => s
  | .vlist _ => ""
  | .vdict _ => ""

/-- A pivot bucket: an ordered list of nested rows (array mode) or the
single last-written nested row (single mode). -/
inductive Bucket where
  | arr : List Row → Bucket
  | single : Row → Bucket
deriving Repr, DecidableEq

/-- The accumulating `outputs` structure of `write_pivot`: one level of
`Val` keys for a plain pivot, two for a subfield pivot. -/
inductive POut where
  | flat : List (Val × Bucket) → POut
  | nested : List (Val × List (Val × Bucket)) → POut
deriving Repr, DecidableEq

/-- The substituted grouping key:
`row_key = row.get(f, None); row_key = row_key if row_key else null_key`. -/
def substKey (row : Row) (f : String) (null_key : Val) : Val :=
  let v := (alookup row f).getD .vnull
  if v.truthy then v else null_key

/-- The list an array-mode bucket currently holds: the code reads the
defaultdict entry, which is a list in array mode (`[]` when absent). -/
def armOf : Option Bucket → List Row
  | some (.arr l) => l
  | _ => []

/-- One iteration of the row loop in `write_pivot`. A falsy outer key
skips the row (`continue`); an unhashable key or a nesting failure is a
Python exception (`none`); otherwise the projected row is appended to
(array mode) or overwrites (single mode) its bucket, one level deep
without a subfield and two levels deep with one — at the inner level a
falsy substituted key is used as the bucket key rather than skipped. -/
def write_pivot_step (pf : PivotField) (output_fields : List String)
    (acc : POut) (row : Row) : Option POut :=
  let okey := substKey row pf.field pf.null_key
  if okey.truthy = false then some acc
  else if okey.hashable = false then none
  else
    match pf.subfield, acc with
    | none, .flat buckets =>
      (filter_and_nest_row row output_fields).map (fun row_data =>
        if pf.is_array then
          POut.flat (aset buckets okey
            (.arr (armOf (alookup buckets okey) ++ [row_data])))
        else
          POut.flat (aset buckets okey (.single row_data)))
    | some sf, .nested outer =>
      let parent := (alookup outer okey).getD []
      let ikey := substKey row sf pf.null_key
      if ikey.hashable = false then none
      else
        (filter_and_nest_row row output_fields).map (fun row_data =>
          if pf.is_array then
            POut.nested (aset outer okey (aset parent ikey
              (.arr (armOf (alookup parent ikey) ++ [row_data]))))
          else
            POut.nested (aset outer okey (aset parent ikey (.single row_data))))
    | _, _ => none

/-- The grouping loop of `write_pivot` over all rows, starting from the
empty (one- or two-level) defaultdict. -/
def write_pivot_data (pf : PivotField) (data : List Row)
    (output_fields : List String) : Option POut :=
  let init : POut := match pf.subfield with
    | some _ => .nested []
    | none => .flat []
  data.foldlM (write_pivot_step pf output_fields) init

/-- Lexicographic (code-point) strict comparison of character lists,
matching how Python compares strings. -/
def charsLtB : List Char → List Char → Bool
  | [], [] => false
  | [], _ :: _ => true
  | _ :: _, [] => false
  | c :: cs, d :: ds =>
    if c < d then true else if d < c then false else charsLtB cs ds

/-- Python `<` on strings. -/
def strLtB (a b : String) : Bool := charsLtB a.data b.data

/-- Stable insertion into a string-keyed list sorted ascending. -/
def insertSortedPair {β : Type} (p : String × β) :
    List (String × β) → List (String × β)
  | [] => [p]
  | q :: qs => if strLtB p.1 q.1 then p :: q :: qs else q :: insertSortedPair p qs

/-- Insertion sort by string key, ascending. -/
def sortPairs {β : Type} : List (String × β) → List (String × β)
  | [] => []
  | p :: ps => insertSortedPair p (sortPairs ps)

/-- `dict(sorted((str(k), v) for k, v in outputs.items()))` as a sorted
association list. When two distinct keys share a string form Python's
`sorted` falls through to comparing the bucket values, which raises
`TypeError` on the dict/list buckets produced here; that case is
modelled as `none`. -/
def sortByStrKey {β : Type} (l : List (Val × β)) :
    Option (List (String × β)) :=
  let pairs := l.map (fun kv => (pyStr kv.1, kv.2))
  if (pairs.map Prod.fst).Nodup then some (sortPairs pairs) else none

/-- The JSON document `write_pivot` persists: top-level keys converted
to strings and sorted; inner keys (two-level case) left as raw values. -/
inductive PivotJson where
  | flat : List (String × Bucket) → PivotJson
  | nested : List (String × List (Val × Bucket)) → PivotJson
deriving Repr, DecidableEq

/-- `write_pivot(...)`: group all rows, then sort the top level by the
keys' string form. -/
def write_pivot (pf : PivotField) (data : List Row)
    (output_fields : List String) : Option PivotJson :=
  match write_pivot_data pf data output_fields with
  | some (.flat buckets) => (sortByStrKey buckets).map .flat
  | some (.nested outer) => (sortByStrKey outer).map .nested
  | none => none

/-- `resolve_pivot_spec(pivot_spec, shared_pivots)`: a string is looked
up among the shared pivots (`KeyError` → `none` when unknown), a dict is
returned as is, anything else raises `ValueError` (`none`). -/
def resolve_pivot_spec (spec : PivotSpec) (shared : List (String × Pivot)) :
    Option Pivot :=
  match spec with
  | .ref s => alookup shared s
  | .inline p => some p
  | .malformed => none

/-! ## Intermediate builder (`preprocess_source`, `build_intermediate`) -/

/-- One declared preprocessing transform `{field, template}`. -/
structure Transform where
  field : String
  template : String
deriving Repr, DecidableEq

/-- A source's configuration: its `crosswalk_key` and its (possibly
empty) list of preprocessing transforms. -/
structure SourceConf where
  crosswalk_key : String
  preprocess : List Transform
deriving Repr, DecidableEq

/-- `preprocess_source(data, transformations)` with template rendering
abstracted: `render t d` stands for `Template(t).render(**d)` (Jinja2 is
an external collaborator outside this repository). Each transform
assigns the rendered, stripped string to its field in declared order, so
later transforms see the fields earlier ones wrote. -/
def preprocess_source (render : String → Row → String) (data : Row)
    (ts : List Transform) : Row :=
  ts.foldl (fun d t => aset d t.field (.vstr (pyStrip (render t.template d)))) data

/-- A source mapping as returned by a provider's `load()`:
`{join_key: record}`. Keyed by `Val` because `data.get(field_val)` is
called with whatever value the crosswalk holds (including `None`). -/
abbrev SourceData := List (Val × Row)

/-- One iteration of the per-source loop of `build_intermediate` for one
identity, threading the source mapping as state: `preprocess_source`
mutates the looked-up record *in place* (`data[field] = ...`), so the
mutation is visible through `data` in later iterations. An unhashable
join-key value raises `TypeError` in `data.get` (`none`); an empty or
missing record is left untouched (`if player_data:` fails). -/
def source_step (render : String → Row → String) (conf : SourceConf)
    (data : SourceData) (c : Row) : Option SourceData :=
  let fv := (alookup c conf.crosswalk_key).getD .vnull
  if fv.hashable = false then none
  else
    match alookup data fv with
    | some r =>
      if r.isEmpty then some data
      else some (aset data fv (preprocess_source render r conf.preprocess))
    | none => some data

/-- The final state of a source's mapping after the whole identity loop. -/
def source_final (render : String → Row → String) (conf : SourceConf)
    (data0 : SourceData) (players : List Row) : Option SourceData :=
  players.foldlM (source_step render conf) data0

/-- The record attached under a source's name for one identity. Every
attachment aliases the record object inside the source mapping, so after
the loop each identity observes that object's *final* state; an identity
whose join key misses the mapping holds a fresh empty dict. (A record is
preprocessed once per matching identity; preprocessing never empties a
record and empty records are never preprocessed, so the loop's
`if player_data:` test gives the same branch at attach time and at the
end.) -/
def attached (dataFinal : SourceData) (conf : SourceConf) (c : Row) : Row :=
  (alookup dataFinal ((alookup c conf.crosswalk_key).getD .vnull)).getD []

/-- The crosswalk record of an intermediate:
`player.get("crosswalk", {})` (always a dict slot in practice). -/
def crosswalk_of (inter : Row) : Row :=
  match alookup inter "crosswalk" with
  | some (.vdict c) => c
  | _ => []

/-- Attach one source to every intermediate. -/
def attach_source (render : String → Row → String)
    (inters : List (Val × Row)) (name : String) (conf : SourceConf)
    (data0 : SourceData) : Option (List (Val × Row)) :=
  match source_final render conf data0
      (inters.map (fun pr => crosswalk_of pr.2)) with
  | some dataF =>
    some (inters.map (fun pr =>
      (pr.1, aset pr.2 name (Val.vdict (attached dataF conf (crosswalk_of pr.2))))))
  | none => none

/-- `build_intermediate(crosswalk, registry)`: seed one intermediate per
`prism_id` with its crosswalk record (a duplicated id overwrites the
slot), then, source by source, load the source's mapping once and attach
each identity's record. `none` models the `KeyError` on a crosswalk
record without `"prism_id"`, a `TypeError` on an unhashable id or join
key. -/
def seed_intermediate (acc : List (Val × Row)) (c : Row) :
    Option (List (Val × Row)) :=
  match alookup c "prism_id" with
  | some pid =>
    if pid.hashable = false then none
    else some (aset acc pid [("crosswalk", Val.vdict c)])
  | none => none

def build_intermediate (crosswalk : List Row)
    (sources : List (String × SourceConf)) (loader : String → SourceData)
    (render : String → Row → String) : Option (List (Val × Row)) :=
  match crosswalk.foldlM seed_intermediate [] with
  | some inters =>
    sources.foldlM
      (fun is nc => attach_source render is nc.1 nc.2 (loader nc.1)) inters
  | none => none

/-! ## The build driver (`main`), as a filesystem-event trace -/

/-- A filesystem effect of the build: a directory creation or a file
write, with the path as segments below the filesystem root. -/
inductive FSEvent where
  | mkdir : List String → FSEvent
  | writeFile : List String → FSEvent
deriving Repr, DecidableEq

/-- The registry configuration, as loaded from the YAML file. -/
structure RegistryConf where
  sources : List (String × SourceConf)
  mappings : List MappingRule
  fieldsets : List (String × FieldsetDef)
  pivots : List (String × Pivot)
  products : List (String × Option Product)
deriving Repr, DecidableEq

/-- `write_outputs(name, output_dir, transformed, fields)` as its event
trace plus a completion flag: mkdir and the CSV are written first; the
nested projection (`filter_and_nest_rows`) may raise, in which case the
three JSON outputs are never written. -/
def write_outputs_run (name : String) (dir : List String)
    (transformed : List Row) (fields : List String) :
    List FSEvent × Bool :=
  let pre := [FSEvent.mkdir dir, FSEvent.writeFile (dir ++ [name ++ ".csv"])]
  match transformed.mapM (fun r => filter_and_nest_row r fields) with
  | none => (pre, false)
  | some _ =>
    (pre ++ [FSEvent.writeFile (dir ++ [name ++ ".json"]),
             FSEvent.writeFile (dir ++ [name ++ ".min.json"]),
             FSEvent.writeFile (dir ++ [name ++ ".ndjson"])], true)

/-- The inner loop of `write_pivots` over one pivot's field specs:
mkdir the pivot directory, build the pivot, write its JSON file. -/
def write_pivot_fields_run (pivot_dir : List String) (transformed : List Row)
    (fields : List String) : List PivotField → List FSEvent × Bool
  | [] => ([], true)
  | pf :: rest =>
    match write_pivot pf transformed fields with
    | none => ([FSEvent.mkdir pivot_dir], false)
    | some _ =>
      let r := write_pivot_fields_run pivot_dir transformed fields rest
      (FSEvent.mkdir pivot_dir ::
        FSEvent.writeFile (pivot_dir ++ [pf.name ++ ".json"]) :: r.1, r.2)

/-- `write_pivots(...)` over a product's pivot specs: resolve each spec
(an unknown shared name or unsupported shape raises before any event of
that pivot), then emit each of its pivot fields. -/
def write_pivots_run (dir : List String) (transformed : List Row)
    (fields : List String) (shared : List (String × Pivot)) :
    List PivotSpec → List FSEvent × Bool
  | [] => ([], true)
  | spec :: rest =>
    match resolve_pivot_spec spec shared with
    | none => ([], false)
    | some pivot =>
      let r :=
        write_pivot_fields_run (dir ++ [pivot.name]) transformed fields pivot.fields
      if r.2 then
        let r2 := write_pivots_run dir transformed fields shared rest
        (r.1 ++ r2.1, r2.2)
      else (r.1, false)

/-- `product.get("pivots", [])` (a falsy product has no pivots). -/
def productPivots : Option Product → List PivotSpec
  | some p => p.pivots
  | none => []

/-- The product loop of `main`: per product, resolve the field list
(`KeyError` aborts before that product's directory is created), create
the product directory unconditionally, and only when the field list is
non-empty write the outputs and the pivots. -/
def products_run (outRoot : List String) (transformed : List Row)
    (fieldsetsAll : List (String × List String))
    (shared : List (String × Pivot)) :
    List (String × Option Product) → List FSEvent × Bool
  | [] => ([], true)
  | (name, product) :: rest =>
    match parse_product_fields product fieldsetsAll with
    | none => ([], false)
    | some fields =>
      let pdir := outRoot ++ [name]
      if fields.isEmpty then
        let r := products_run outRoot transformed fieldsetsAll shared rest
        (FSEvent.mkdir pdir :: r.1, r.2)
      else
        let rA := write_outputs_run name pdir transformed fields
        if rA.2 then
          let rB :=
            write_pivots_run pdir transformed fields shared (productPivots product)
          if rB.2 then
            let r := products_run outRoot transformed fieldsetsAll shared rest
            (FSEvent.mkdir pdir :: (rA.1 ++ rB.1 ++ r.1), r.2)
          else (FSEvent.mkdir pdir :: (rA.1 ++ rB.1), false)
        else (FSEvent.mkdir pdir :: rA.1, false)

/-- `main()` after argument parsing, as the event trace it produces and
whether it ran to completion (`false` = an uncaught exception aborted
it): create the output root, build the intermediates, optionally dump
them, transform the records, expand the fieldsets, then run every
product. -/
def main_run (outRoot : List String) (dump : Bool) (crosswalk : List Row)
    (registry : RegistryConf) (loader : String → SourceData)
    (render : String → Row → String) : List FSEvent × Bool :=
  let ev0 := [FSEvent.mkdir outRoot]
  match build_intermediate crosswalk registry.sources loader render with
  | none => (ev0, false)
  | some inters =>
    let ev1 := ev0 ++
      (if dump then [FSEvent.writeFile (outRoot ++ ["intermediate.json"])] else [])
    match transform_records inters registry.mappings with
    | none => (ev1, false)
    | some transformed =>
      match parse_fieldsets registry.fieldsets with
      | none => (ev1, false)
      | some fsAll =>
        let r :=
          products_run outRoot transformed fsAll registry.pivots registry.products
        (ev1 ++ r.1, r.2)

/-! ## Claims C1 and C8: the Field Resolver -/

/-- The first truthy value resolved among the paths, in declared order
(the specification's description of fallback resolution). -/
def firstTruthy (I : Val) (ps : List String) : Option Val :=
  ps.findSome? (fun p =>
    match get_nested I p with
    | some v => if v.truthy then some v else none
    | none => none)

theorem get_nested_truthy_or_null (I : Val) (p : String) (v : Val)
    (h : get_nested I p = some v) : v.truthy = true ∨ v = .vnull := by
  unfold get_nested at h
  cases hr : rawNested I p with
  | none => simp [hr] at h
  | some r =>
    simp only [hr, Option.some.injEq] at h
    cases ht : r.truthy with
    | true => left; rw [← h]; simp [ht]
    | false => right; rw [← h]; simp [ht]

/-- C1 (amended): for a mapping rule whose `src` is a non-empty list of
paths, the Field Resolver returns the first truthy value in declared
order; when no path resolves to a truthy value the result is the last
evaluated path's value as normalized by `get_nested` — which maps every
falsy raw value to `None` — so the overall result is `None`, never a raw
falsy value such as the empty string. -/
theorem claim_C1_fallback (I : Val) (ps : List String) (hne : ps ≠ [])
    (hok : ∀ p ∈ ps, (get_nested I p).isSome) :
    transform_field I (.multi ps) = some ((firstTruthy I ps).getD .vnull) := by
  induction ps with
  | nil => exact absurd rfl hne
  | cons p rest ih =>
    have hps : (get_nested I p).isSome := hok p (by simp)
    cases hg : get_nested I p with
    | none => rw [hg] at hps; simp at hps
    | some v =>
      rcases get_nested_truthy_or_null I p v hg with ht | hnull
      · cases rest with
        | nil =>
          simp [transform_field, transform_field_loop, hg, firstTruthy, ht]
        | cons q qs =>
          simp [transform_field, transform_field_loop, hg, firstTruthy, ht]
      · subst hnull
        cases rest with
        | nil =>
          simp [transform_field, transform_field_loop, hg, firstTruthy, Val.truthy]
        | cons q qs =>
          have ih2 := ih (by simp)
            (fun p' hp' => hok p' (List.mem_cons_of_mem _ hp'))
          simp only [transform_field, transform_field_loop, hg, Val.truthy,
            if_false] at ih2 ⊢
          rw [ih2]
          simp [firstTruthy, hg, Val.truthy]

/-- C1, counterexample: with both paths resolving to the empty string
the resolver returns `None` — not the raw value of the last evaluated
path (the empty string), as the claim states. -/
theorem claim_C1_counterexample :
    transform_field
      (.vdict [("src1", .vdict [("a", .vstr "")]),
               ("src2", .vdict [("a", .vstr "")])])
      (.multi ["src1.a", "src2.a"]) = some Val.vnull ∧
    (some Val.vnull : Option Val) ≠ some (Val.vstr "") := by
  constructor
  · decide
  · decide

/-- C1, witness for the amended theorem at a concrete input: the second
path's truthy value wins after the first resolves empty. -/
theorem claim_C1_witness :
    transform_field
      (.vdict [("src1", .vdict [("a", .vstr "")]),
               ("src2", .vdict [("a", .vstr "v")])])
      (.multi ["src1.a", "src2.a"]) = some (Val.vstr "v") := by
  have h := claim_C1_fallback
    (.vdict [("src1", .vdict [("a", .vstr "")]),
             ("src2", .vdict [("a", .vstr "v")])])
    ["src1.a", "src2.a"] (by decide) (by decide)
  rw [h]
  decide

/-- C8: whenever the raw value reached at the end of a dotted path is
falsy — an empty string, empty mapping, zero, or the `{}` produced by a
missing key — `get_nested` returns `None`; and `get_nested` never
returns a falsy value other than `None`, so a falsy non-`None` value
stored in a source record is never returned as a resolved field value. -/
theorem claim_C8_falsy_to_none (data : Val) (path : String) (r : Val)
    (h : rawNested data path = some r) (hf : r.truthy = false) :
    get_nested data path = some Val.vnull ∧
    (∀ v, get_nested data path = some v → v.truthy = true ∨ v = Val.vnull) := by
  constructor
  · unfold get_nested
    rw [h]
    simp [hf]
  · exact fun v hv => get_nested_truthy_or_null data path v hv

/-- C8, witness: an empty string at the end of the path yields `None`. -/
theorem claim_C8_witness :
    get_nested (.vdict [("a", .vdict [("b", .vstr "")])]) "a.b" =
      some Val.vnull :=
  (claim_C8_falsy_to_none (.vdict [("a", .vdict [("b", .vstr "")])]) "a.b"
    (.vstr "") (by decide) (by decide)).1

/-! ## Claims C3 and C4: configuration errors -/

theorem alookup_isSome_iff {α β : Type} [DecidableEq α]
    (l : List (α × β)) (k : α) :
    (alookup l k).isSome ↔ k ∈ l.map Prod.fst := by
  induction l with
  | nil => simp [alookup]
  | cons kv rest ih =>
    obtain ⟨a, b⟩ := kv
    by_cases h : a = k
    · subst h
      simp [alookup]
    · simp [alookup, h, ih, Ne.symm h]

theorem mem_keys_aset_iff {α β : Type} [DecidableEq α]
    (l : List (α × β)) (k k' : α) (v : β) :
    k' ∈ (aset l k v).map Prod.fst ↔ k' = k ∨ k' ∈ l.map Prod.fst := by
  induction l with
  | nil => simp [aset]
  | cons kv rest ih =>
    obtain ⟨a, b⟩ := kv
    by_cases h : a = k
    · subst h
      rw [show aset ((a, b) :: rest) a v = (a, v) :: rest from by simp [aset]]
      simp only [List.map_cons, List.mem_cons]
      tauto
    · rw [show aset ((a, b) :: rest) k v = (a, b) :: aset rest k v from by
        simp [aset, h]]
      simp only [List.map_cons, List.mem_cons, ih]
      tauto

/-- Modelled from the spec: the declared references of fieldset `n`. -/
def fieldsetRefs (input : List (String × FieldsetDef)) (n : String) :
    List String :=
  ((alookup input n).map FieldsetDef.fieldsets).getD []

/-- Modelled from the spec: one step of the reference closure. -/
def refsStep (input : List (String × FieldsetDef)) (s : List String) :
    List String :=
  dedupFirst (s ++ (s.map (fieldsetRefs input)).flatten)

/-- Modelled from the spec: iterated reference closure. -/
def refsClosure (input : List (String × FieldsetDef)) :
    Nat → List String → List String
  | 0, s => s
  | k + 1, s => refsClosure input k (refsStep input s)

/-- Modelled from the spec (§3, §4.4): a registry configuration contains
a cyclic fieldset reference when some fieldset transitively includes
itself. (The `fieldsets` section — cycle detection — is absent from the
code, so the cycle notion itself is taken from the spec's words.) -/
def spec_has_fieldset_cycle (input : List (String × FieldsetDef)) : Bool :=
  input.any (fun nfs =>
    (refsClosure input input.length (fieldsetRefs input nfs.1)).contains nfs.1)

/-- C3, counterexample: a directly self-referencing fieldset is a cyclic
configuration, yet `parse_fieldsets` accepts it and returns an expansion
(no error), contradicting the claim that cyclic configurations are
detected and rejected. -/
theorem claim_C3_counterexample :
    spec_has_fieldset_cycle [("A", ⟨["x"], ["A"]⟩)] = true ∧
    parse_fieldsets [("A", ⟨["x"], ["A"]⟩)] = some [("A", ["x"])] := by
  constructor
  · decide
  · decide

theorem fieldsets_inner_total (name : String)
    (refs : List String) (st : List (String × List String))
    (hname : name ∈ st.map Prod.fst)
    (hrefs : ∀ r ∈ refs, r ∈ st.map Prod.fst) :
    ∃ st', refs.foldlM (fieldsets_extend name) st = some st' ∧
      ∀ k, k ∈ st.map Prod.fst → k ∈ st'.map Prod.fst := by
  induction refs generalizing st with
  | nil => exact ⟨st, rfl, fun k hk => hk⟩
  | cons r rest ih =>
    have hr : r ∈ st.map Prod.fst := hrefs r (by simp)
    obtain ⟨srcF, hsrcF⟩ :=
      Option.isSome_iff_exists.mp ((alookup_isSome_iff st r).mpr hr)
    obtain ⟨cur, hcur⟩ :=
      Option.isSome_iff_exists.mp ((alookup_isSome_iff st name).mpr hname)
    have hsub : ∀ k, k ∈ st.map Prod.fst →
        k ∈ (aset st name (cur ++ srcF)).map Prod.fst := by
      intro k hk
      exact (mem_keys_aset_iff _ _ _ _).mpr (Or.inr hk)
    obtain ⟨st', hst', hkeep⟩ := ih (aset st name (cur ++ srcF))
      (hsub name hname) (fun r' hr' => hsub r' (hrefs r' (by simp [hr'])))
    refine ⟨st', ?_, fun k hk => hkeep k (hsub k hk)⟩
    rw [List.foldlM_cons]
    simp only [fieldsets_extend, hsrcF, hcur, Option.bind_some]
    exact hst'

theorem fieldsets_pass2_total (rem : List (String × FieldsetDef))
    (st : List (String × List String))
    (hkeys : ∀ nfs ∈ rem, nfs.1 ∈ st.map Prod.fst ∧
      ∀ r ∈ nfs.2.fieldsets, r ∈ st.map Prod.fst) :
    (fieldsets_pass2 st rem).isSome := by
  induction rem generalizing st with
  | nil => simp [fieldsets_pass2]
  | cons nfs rest ih =>
    obtain ⟨name, fs⟩ := nfs
    obtain ⟨hname, hrefs⟩ := hkeys (name, fs) (by simp)
    obtain ⟨st', hst', hkeep⟩ := fieldsets_inner_total name fs.fieldsets st hname hrefs
    have hrest := ih st' (fun nfs' hmem => by
      obtain ⟨h1, h2⟩ := hkeys nfs' (List.mem_cons_of_mem _ hmem)
      exact ⟨hkeep _ h1, fun r hr => hkeep _ (h2 r hr)⟩)
    simp only [fieldsets_pass2, hst']
    exact hrest

theorem mem_keys_fieldsets_init (input : List (String × FieldsetDef))
    (acc : List (String × List String)) (k : String)
    (hk : k ∈ input.map Prod.fst ∨ k ∈ acc.map Prod.fst) :
    k ∈ (input.foldl (fun acc nfs => aset acc nfs.1 nfs.2.fields) acc).map
      Prod.fst := by
  induction input generalizing acc with
  | nil => simpa using hk.resolve_left (by simp)
  | cons nfs rest ih =>
    simp only [List.map_cons, List.mem_cons] at hk
    apply ih
    rcases hk with (hk | hk) | hk
    · exact Or.inr ((mem_keys_aset_iff _ _ _ _).mpr (Or.inl hk))
    · exact Or.inl hk
    · exact Or.inr ((mem_keys_aset_iff _ _ _ _).mpr (Or.inr hk))

/-- C3 (amended): fieldset expansion performs one fixed pass with no
cycle detection — whenever every referenced fieldset name is declared,
`parse_fieldsets` terminates successfully, including on cyclic
configurations, silently expanding each reference to the referenced
fieldset's expansion state at that point instead of rejecting the
configuration. -/
theorem claim_C3_no_cycle_detection (input : List (String × FieldsetDef))
    (href : ∀ nfs ∈ input, ∀ r ∈ nfs.2.fieldsets, r ∈ input.map Prod.fst) :
    (parse_fieldsets input).isSome := by
  unfold parse_fieldsets
  have hp2 := fieldsets_pass2_total input
    (input.foldl (fun acc nfs => aset acc nfs.1 nfs.2.fields) [])
    (fun nfs hmem =>
      ⟨mem_keys_fieldsets_init input [] nfs.1
          (Or.inl (List.mem_map_of_mem Prod.fst hmem)),
        fun r hr => mem_keys_fieldsets_init input [] r
          (Or.inl (href nfs hmem r hr))⟩)
  obtain ⟨st', hst'⟩ := Option.isSome_iff_exists.mp hp2
  simp [hst']

/-- C3, witness for the amended theorem: a cyclic configuration whose
references all exist expands without error. -/
theorem claim_C3_witness :
    (parse_fieldsets [("A", ⟨["x"], ["A"]⟩), ("B", ⟨["y"], ["A"]⟩)]).isSome :=
  claim_C3_no_cycle_detection
    [("A", ⟨["x"], ["A"]⟩), ("B", ⟨["y"], ["A"]⟩)] (by decide)

/-- C4, counterexample: a configuration with a cyclic fieldset reference
(a configuration error per the claim) does not abort the build at all:
`main` runs to completion, and the top-level output directory is created. -/
theorem claim_C4_counterexample :
    spec_has_fieldset_cycle [("A", ⟨["x"], ["A"]⟩)] = true ∧
    main_run ["out"] false []
      ⟨[], [], [("A", ⟨["x"], ["A"]⟩)], [], []⟩
      (fun _ => []) (fun _ _ => "") = ([FSEvent.mkdir ["out"]], true) := by
  exact ⟨by decide, rfl⟩

theorem main_run_mkdir_root (outRoot : List String) (dump : Bool)
    (crosswalk : List Row) (registry : RegistryConf)
    (loader : String → SourceData) (render : String → Row → String) :
    FSEvent.mkdir outRoot ∈
      (main_run outRoot dump crosswalk registry loader render).1 := by
  unfold main_run
  cases hb : build_intermediate crosswalk registry.sources loader render with
  | none => simp
  | some inters =>
    cases ht : transform_records inters registry.mappings with
    | none => simp [ht]
    | some transformed =>
      cases hf : parse_fieldsets registry.fieldsets with
      | none => simp [ht, hf]
      | some fsAll => simp [ht, hf]

/-- An unknown fieldset reference inside some product makes the product
loop raise (`KeyError` in `parse_product_fields`) wherever that product
sits in the iteration order: every earlier branch either aborts itself
or continues the loop. -/
theorem products_run_fail_of_parse_none (outRoot : List String)
    (transformed : List Row) (fsAll : List (String × List String))
    (shared : List (String × Pivot))
    (products : List (String × Option Product)) (name : String)
    (product : Option Product)
    (hmem : (name, product) ∈ products)
    (hp : parse_product_fields product fsAll = none) :
    (products_run outRoot transformed fsAll shared products).2 = false := by
  induction products with
  | nil => simp at hmem
  | cons np rest ih =>
    obtain ⟨n0, p0⟩ := np
    unfold products_run
    cases hp0 : parse_product_fields p0 fsAll with
    | none => simp [hp0]
    | some fields =>
      simp only [hp0]
      rcases List.mem_cons.mp hmem with he | hm
      · exfalso
        obtain ⟨h1, h2⟩ := Prod.mk.inj he
        rw [← h2, hp] at hp0
        exact Option.noConfusion hp0
      · by_cases hemp : fields.isEmpty
        · rw [if_pos hemp]
          dsimp only
          exact ih hm
        · rw [if_neg hemp]
          by_cases hokA : (write_outputs_run n0 (outRoot ++ [n0])
              transformed fields).2 = true
          · rw [if_pos hokA]
            by_cases hokB : (write_pivots_run (outRoot ++ [n0]) transformed
                fields shared (productPivots p0)).2 = true
            · rw [if_pos hokB]
              dsimp only
              exact ih hm
            · rw [if_neg hokB]
          · rw [if_neg hokA]

/-- A pivot spec that `resolve_pivot_spec` rejects (unsupported shape,
or an unknown shared-pivot name) fails the pivot loop wherever it sits. -/
theorem write_pivots_run_fail (dir : List String) (transformed : List Row)
    (fields : List String) (shared : List (String × Pivot))
    (specs : List PivotSpec) (spec : PivotSpec)
    (hmem : spec ∈ specs)
    (hres : resolve_pivot_spec spec shared = none) :
    (write_pivots_run dir transformed fields shared specs).2 = false := by
  induction specs with
  | nil => simp at hmem
  | cons s0 rest ih =>
    unfold write_pivots_run
    cases hr : resolve_pivot_spec s0 shared with
    | none => simp [hr]
    | some pivot =>
      simp only [hr]
      rcases List.mem_cons.mp hmem with he | hm
      · exfalso
        rw [← he, hres] at hr
        exact Option.noConfusion hr
      · by_cases hokF : (write_pivot_fields_run (dir ++ [pivot.name])
            transformed fields pivot.fields).2 = true
        · rw [if_pos hokF]
          dsimp only
          exact ih hm
        · rw [if_neg hokF]

/-- A product with a non-empty field list and a malformed/unresolvable
pivot spec fails the product loop wherever it sits. -/
theorem products_run_fail_of_bad_pivot (outRoot : List String)
    (transformed : List Row) (fsAll : List (String × List String))
    (shared : List (String × Pivot))
    (products : List (String × Option Product)) (name : String)
    (product : Option Product) (fl : List String) (spec : PivotSpec)
    (hmem : (name, product) ∈ products)
    (hp : parse_product_fields product fsAll = some fl) (hfl : fl ≠ [])
    (hspec : spec ∈ productPivots product)
    (hres : resolve_pivot_spec spec shared = none) :
    (products_run outRoot transformed fsAll shared products).2 = false := by
  induction products with
  | nil => simp at hmem
  | cons np rest ih =>
    obtain ⟨n0, p0⟩ := np
    unfold products_run
    cases hp0 : parse_product_fields p0 fsAll with
    | none => simp [hp0]
    | some fields =>
      simp only [hp0]
      rcases List.mem_cons.mp hmem with he | hm
      · obtain ⟨h1, h2⟩ := Prod.mk.inj he
        rw [← h2, hp] at hp0
        have hfe : fields = fl := ((Option.some.injEq _ _).mp hp0).symm
        have hemp : fields.isEmpty = false := by
          rw [hfe]
          cases fl with
          | nil => exact absurd rfl hfl
          | cons a l => rfl
        rw [if_neg (by rw [hemp]; exact fun hc => Bool.false_ne_true hc)]
        by_cases hokA : (write_outputs_run n0 (outRoot ++ [n0])
            transformed fields).2 = true
        · rw [if_pos hokA]
          have hB : (write_pivots_run (outRoot ++ [n0]) transformed fields
              shared (productPivots p0)).2 = false := by
            rw [← h2]
            exact write_pivots_run_fail _ _ _ _ _ spec hspec hres
          rw [if_neg (by rw [hB]; exact fun hc => Bool.false_ne_true hc)]
        · rw [if_neg hokA]
      · by_cases hemp : fields.isEmpty
        · rw [if_pos hemp]
          dsimp only
          exact ih hm
        · rw [if_neg hemp]
          by_cases hokA : (write_outputs_run n0 (outRoot ++ [n0])
              transformed fields).2 = true
          · rw [if_pos hokA]
            by_cases hokB : (write_pivots_run (outRoot ++ [n0]) transformed
                fields shared (productPivots p0)).2 = true
            · rw [if_pos hokB]
              dsimp only
              exact ih hm
            · rw [if_neg hokB]
          · rw [if_neg hokA]

/-- When the product loop is bound to fail for every possible record
list, `main` ends in failure (unless an even earlier stage aborted,
which is failure too). -/
theorem main_run_fail_of_products_fail (outRoot : List String) (dump : Bool)
    (crosswalk : List Row) (registry : RegistryConf)
    (loader : String → SourceData) (render : String → Row → String)
    (fsAll : List (String × List String))
    (hfs : parse_fieldsets registry.fieldsets = some fsAll)
    (hfail : ∀ transformed, (products_run outRoot transformed fsAll
      registry.pivots registry.products).2 = false) :
    (main_run outRoot dump crosswalk registry loader render).2 = false := by
  unfold main_run
  cases hb : build_intermediate crosswalk registry.sources loader render with
  | none => rfl
  | some inters =>
    cases ht : transform_records inters registry.mappings with
    | none => simp [ht]
    | some transformed => simp [ht, hfs, hfail transformed]

/-- C4 (amended): each configuration error of the claim, when it is
reached at all, aborts the build with an uncaught exception — but never
before the top-level output directory is created (`main` makes the
output root unconditionally, before any configuration checking, and
earlier products' outputs may also already be written). The three
conjuncts cover an unknown fieldset reference in the `fieldsets`
section, an unknown fieldset reference in a product's fieldset list,
and an unsupported (or unresolvable) pivot spec in a product with a
non-empty field list. A cyclic fieldset reference, by contrast, is not
detected at all and the build completes normally
(see `claim_C4_counterexample`). -/
theorem claim_C4_partial_abort (outRoot : List String) (dump : Bool)
    (crosswalk : List Row) (registry : RegistryConf)
    (loader : String → SourceData) (render : String → Row → String) :
    (parse_fieldsets registry.fieldsets = none →
      (main_run outRoot dump crosswalk registry loader render).2 = false ∧
      FSEvent.mkdir outRoot ∈
        (main_run outRoot dump crosswalk registry loader render).1) ∧
    (∀ fsAll : List (String × List String), ∀ name : String,
      ∀ product : Option Product,
      parse_fieldsets registry.fieldsets = some fsAll →
      (name, product) ∈ registry.products →
      parse_product_fields product fsAll = none →
      (main_run outRoot dump crosswalk registry loader render).2 = false ∧
      FSEvent.mkdir outRoot ∈
        (main_run outRoot dump crosswalk registry loader render).1) ∧
    (∀ fsAll : List (String × List String), ∀ name : String,
      ∀ product : Option Product, ∀ fl : List String, ∀ spec : PivotSpec,
      parse_fieldsets registry.fieldsets = some fsAll →
      (name, product) ∈ registry.products →
      parse_product_fields product fsAll = some fl → fl ≠ [] →
      spec ∈ productPivots product →
      resolve_pivot_spec spec registry.pivots = none →
      (main_run outRoot dump crosswalk registry loader render).2 = false ∧
      FSEvent.mkdir outRoot ∈
        (main_run outRoot dump crosswalk registry loader render).1) := by
  refine ⟨?_, ?_, ?_⟩
  · intro h
    refine ⟨?_, main_run_mkdir_root outRoot dump crosswalk registry loader render⟩
    unfold main_run
    cases hb : build_intermediate crosswalk registry.sources loader render with
    | none => rfl
    | some inters =>
      cases ht : transform_records inters registry.mappings with
      | none => simp [ht]
      | some transformed => simp [ht, h]
  · intro fsAll name product hfs hmem hp
    refine ⟨?_, main_run_mkdir_root outRoot dump crosswalk registry loader render⟩
    exact main_run_fail_of_products_fail outRoot dump crosswalk registry
      loader render fsAll hfs (fun transformed =>
        products_run_fail_of_parse_none outRoot transformed fsAll
          registry.pivots registry.products name product hmem hp)
  · intro fsAll name product fl spec hfs hmem hp hfl hspec hres
    refine ⟨?_, main_run_mkdir_root outRoot dump crosswalk registry loader render⟩
    exact main_run_fail_of_products_fail outRoot dump crosswalk registry
      loader render fsAll hfs (fun transformed =>
        products_run_fail_of_bad_pivot outRoot transformed fsAll
          registry.pivots registry.products name product fl spec hmem hp hfl
          hspec hres)

/-- C4, witness for the amended theorem at three concrete registries:
an unknown reference in the `fieldsets` section, an unknown fieldset
reference in a product, and a product with fields and a malformed pivot
spec — each aborts the build, with the output root already created. -/
theorem claim_C4_witness :
    ((main_run ["out"] false []
        ⟨[], [], [("A", FieldsetDef.mk [] ["B"])], [], []⟩
        (fun _ => []) (fun _ _ => "")).2 = false ∧
      FSEvent.mkdir ["out"] ∈
        (main_run ["out"] false []
          ⟨[], [], [("A", FieldsetDef.mk [] ["B"])], [], []⟩
          (fun _ => []) (fun _ _ => "")).1) ∧
    ((main_run ["out"] false []
        ⟨[], [], [], [], [("p", some ⟨["A"], ["x"], []⟩)]⟩
        (fun _ => []) (fun _ _ => "")).2 = false ∧
      FSEvent.mkdir ["out"] ∈
        (main_run ["out"] false []
          ⟨[], [], [], [], [("p", some ⟨["A"], ["x"], []⟩)]⟩
          (fun _ => []) (fun _ _ => "")).1) ∧
    ((main_run ["out"] false []
        ⟨[], [], [], [], [("p", some ⟨[], ["x"], [PivotSpec.malformed]⟩)]⟩
        (fun _ => []) (fun _ _ => "")).2 = false ∧
      FSEvent.mkdir ["out"] ∈
        (main_run ["out"] false []
          ⟨[], [], [], [], [("p", some ⟨[], ["x"], [PivotSpec.malformed]⟩)]⟩
          (fun _ => []) (fun _ _ => "")).1) :=
  ⟨(claim_C4_partial_abort ["out"] false []
      ⟨[], [], [("A", FieldsetDef.mk [] ["B"])], [], []⟩
      (fun _ => []) (fun _ _ => "")).1 (by decide),
   (claim_C4_partial_abort ["out"] false []
      ⟨[], [], [], [], [("p", some ⟨["A"], ["x"], []⟩)]⟩
      (fun _ => []) (fun _ _ => "")).2.1 [] "p" (some ⟨["A"], ["x"], []⟩)
      (by decide) (by decide) (by decide),
   (claim_C4_partial_abort ["out"] false []
      ⟨[], [], [], [], [("p", some ⟨[], ["x"], [PivotSpec.malformed]⟩)]⟩
      (fun _ => []) (fun _ _ => "")).2.2 [] "p"
      (some ⟨[], ["x"], [PivotSpec.malformed]⟩) ["x"] PivotSpec.malformed
      (by decide) (by decide) (by decide) (by decide) (by decide) (by decide)⟩

/-! ## Claim C2: products with an empty field list -/

/-- `p` lies strictly below directory `d` in the path tree. -/
def underDir (d p : List String) : Bool :=
  decide (d.length < p.length) && (p.take d.length == d)

theorem not_underDir_short (d p : List String) (h : p.length ≤ d.length) :
    underDir d p = false := by
  unfold underDir
  simp [Nat.not_lt.mpr h]

theorem not_underDir_sibling (out : List String) (name n' : String)
    (rest : List String) (hne : n' ≠ name) :
    underDir (out ++ [name]) (out ++ n' :: rest) = false := by
  unfold underDir
  have hlen : (out ++ [name]).length = out.length + 1 := by simp
  have htake : (out ++ n' :: rest).take (out.length + 1) = out ++ [n'] := by
    rw [show out ++ n' :: rest = (out ++ [n']) ++ rest from by simp,
      show out.length + 1 = (out ++ [n']).length from by simp]
    exact List.take_left _ _
  rw [hlen, htake]
  have hfalse : (out ++ [n'] == out ++ [name]) = false := by
    rw [beq_eq_false_iff_ne]
    intro hc
    exact hne (by simpa using hc)
  simp [hfalse]

theorem nodup_keys_eq {α β : Type} [DecidableEq α] (l : List (α × β))
    (hnodup : (l.map Prod.fst).Nodup) (k : α) (b1 b2 : β)
    (h1 : (k, b1) ∈ l) (h2 : (k, b2) ∈ l) : b1 = b2 := by
  induction l with
  | nil => simp at h1
  | cons kv rest ih =>
    simp only [List.map_cons, List.nodup_cons] at hnodup
    rcases List.mem_cons.mp h1 with he1 | hm1 <;>
      rcases List.mem_cons.mp h2 with he2 | hm2
    · rw [← he1] at he2
      exact (Prod.mk.inj he2.symm).2
    · exact absurd (List.mem_map_of_mem Prod.fst hm2)
        (by rw [show (k, b2).1 = kv.1 from by rw [← he1]]; exact hnodup.1)
    · exact absurd (List.mem_map_of_mem Prod.fst hm1)
        (by rw [show (k, b1).1 = kv.1 from by rw [← he2]]; exact hnodup.1)
    · exact ih hnodup.2 hm1 hm2

theorem write_outputs_run_files (name : String) (dir : List String)
    (transformed : List Row) (fields : List String) (path : List String)
    (h : FSEvent.writeFile path ∈
      (write_outputs_run name dir transformed fields).1) :
    ∃ f, path = dir ++ [f] := by
  unfold write_outputs_run at h
  cases hm : transformed.mapM (fun r => filter_and_nest_row r fields) with
  | none =>
    rw [hm] at h
    simp only [List.mem_cons, List.not_mem_nil, or_false] at h
    rcases h with h | h
    · exact absurd h (by simp)
    · exact ⟨name ++ ".csv", by simpa using h⟩
  | some _ =>
    rw [hm] at h
    simp only [List.cons_append, List.nil_append, List.mem_cons,
      List.not_mem_nil, or_false] at h
    rcases h with h | h | h | h | h
    · exact absurd h (by simp)
    · exact ⟨name ++ ".csv", by simpa using h⟩
    · exact ⟨name ++ ".json", by simpa using h⟩
    · exact ⟨name ++ ".min.json", by simpa using h⟩
    · exact ⟨name ++ ".ndjson", by simpa using h⟩

theorem write_pivot_fields_run_files (pivot_dir : List String)
    (transformed : List Row) (fields : List String) (pfs : List PivotField)
    (path : List String)
    (h : FSEvent.writeFile path ∈
      (write_pivot_fields_run pivot_dir transformed fields pfs).1) :
    ∃ f, path = pivot_dir ++ [f] := by
  induction pfs with
  | nil => simp [write_pivot_fields_run] at h
  | cons pf rest ih =>
    unfold write_pivot_fields_run at h
    cases hw : write_pivot pf transformed fields with
    | none =>
      rw [hw] at h
      simp at h
    | some _ =>
      rw [hw] at h
      simp only [List.mem_cons] at h
      rcases h with h | h | h
      · exact absurd h (by simp)
      · exact ⟨pf.name ++ ".json", by simpa using h⟩
      · exact ih h

theorem write_pivots_run_files (dir : List String) (transformed : List Row)
    (fields : List String) (shared : List (String × Pivot))
    (specs : List PivotSpec) (path : List String)
    (h : FSEvent.writeFile path ∈
      (write_pivots_run dir transformed fields shared specs).1) :
    ∃ pn f, path = dir ++ [pn, f] := by
  induction specs with
  | nil => simp [write_pivots_run] at h
  | cons spec rest ih =>
    unfold write_pivots_run at h
    cases hr : resolve_pivot_spec spec shared with
    | none =>
      rw [hr] at h
      simp at h
    | some pivot =>
      simp only [hr] at h
      by_cases hok : (write_pivot_fields_run (dir ++ [pivot.name]) transformed
          fields pivot.fields).2 = true
      · rw [if_pos hok] at h
        rcases List.mem_append.mp h with h | h
        · obtain ⟨f, hf⟩ :=
            write_pivot_fields_run_files _ _ _ _ _ h
          exact ⟨pivot.name, f, by simpa using hf⟩
        · exact ih h
      · rw [if_neg hok] at h
        obtain ⟨f, hf⟩ := write_pivot_fields_run_files _ _ _ _ _ h
        exact ⟨pivot.name, f, by simpa using hf⟩

theorem products_run_files (outRoot : List String) (transformed : List Row)
    (fsAll : List (String × List String)) (shared : List (String × Pivot))
    (products : List (String × Option Product)) (path : List String)
    (h : FSEvent.writeFile path ∈
      (products_run outRoot transformed fsAll shared products).1) :
    ∃ n prodn rest fl, (n, prodn) ∈ products ∧
      parse_product_fields prodn fsAll = some fl ∧ fl ≠ [] ∧
      path = outRoot ++ n :: rest ∧ rest ≠ [] := by
  induction products with
  | nil => simp [products_run] at h
  | cons np rest ih =>
    obtain ⟨name, product⟩ := np
    unfold products_run at h
    cases hp : parse_product_fields product fsAll with
    | none =>
      rw [hp] at h
      simp at h
    | some fields =>
      simp only [hp] at h
      by_cases hemp : fields.isEmpty
      · rw [if_pos hemp] at h
        simp only [List.mem_cons] at h
        rcases h with h | h
        · exact absurd h (by simp)
        · obtain ⟨n, prodn, r, fl, hmem, hpf, hfl, hpath, hr⟩ := ih h
          exact ⟨n, prodn, r, fl, List.mem_cons_of_mem _ hmem, hpf, hfl, hpath, hr⟩
      · rw [if_neg hemp] at h
        have hfields : fields ≠ [] := by
          intro hc
          rw [hc] at hemp
          simp at hemp
        have houtputs : ∀ p, FSEvent.writeFile p ∈
            (write_outputs_run name (outRoot ++ [name]) transformed fields).1 →
            ∃ n prodn r fl, (n, prodn) ∈ (name, product) :: rest ∧
              parse_product_fields prodn fsAll = some fl ∧ fl ≠ [] ∧
              p = outRoot ++ n :: r ∧ r ≠ [] := by
          intro p hp'
          obtain ⟨f, hf⟩ := write_outputs_run_files _ _ _ _ _ hp'
          exact ⟨name, product, [f], fields, by simp, hp, hfields,
            by simpa using hf, by simp⟩
        have hpivots : ∀ p, FSEvent.writeFile p ∈
            (write_pivots_run (outRoot ++ [name]) transformed fields shared
              (productPivots product)).1 →
            ∃ n prodn r fl, (n, prodn) ∈ (name, product) :: rest ∧
              parse_product_fields prodn fsAll = some fl ∧ fl ≠ [] ∧
              p = outRoot ++ n :: r ∧ r ≠ [] := by
          intro p hp'
          obtain ⟨pn, f, hf⟩ := write_pivots_run_files _ _ _ _ _ _ hp'
          exact ⟨name, product, [pn, f], fields, by simp, hp, hfields,
            by simpa using hf, by simp⟩
        by_cases hokA : (write_outputs_run name (outRoot ++ [name])
            transformed fields).2 = true
        · rw [if_pos hokA] at h
          by_cases hokB : (write_pivots_run (outRoot ++ [name]) transformed
              fields shared (productPivots product)).2 = true
          · rw [if_pos hokB] at h
            simp only [List.mem_cons, List.mem_append] at h
            rcases h with h | (h | h) | h
            · exact absurd h (by simp)
            · exact houtputs path h
            · exact hpivots path h
            · obtain ⟨n, prodn, r, fl, hmem, hpf, hfl, hpath, hr⟩ := ih h
              exact ⟨n, prodn, r, fl, List.mem_cons_of_mem _ hmem, hpf, hfl,
                hpath, hr⟩
          · rw [if_neg hokB] at h
            simp only [List.mem_cons, List.mem_append] at h
            rcases h with h | h | h
            · exact absurd h (by simp)
            · exact houtputs path h
            · exact hpivots path h
        · rw [if_neg hokA] at h
          simp only [List.mem_cons] at h
          rcases h with h | h
          · exact absurd h (by simp)
          · exact houtputs path h

theorem products_run_empty_mkdir (outRoot : List String)
    (transformed : List Row) (fsAll : List (String × List String))
    (shared : List (String × Pivot))
    (products : List (String × Option Product)) (name : String)
    (product : Option Product)
    (hmem : (name, product) ∈ products)
    (hf : parse_product_fields product fsAll = some [])
    (hok : (products_run outRoot transformed fsAll shared products).2 = true) :
    FSEvent.mkdir (outRoot ++ [name]) ∈
      (products_run outRoot transformed fsAll shared products).1 := by
  induction products with
  | nil => simp at hmem
  | cons np rest ih =>
    obtain ⟨n0, p0⟩ := np
    unfold products_run at hok ⊢
    cases hp : parse_product_fields p0 fsAll with
    | none =>
      rw [hp] at hok
      simp at hok
    | some fields =>
      simp only [hp] at hok ⊢
      by_cases hemp : fields.isEmpty
      · rw [if_pos hemp] at hok ⊢
        dsimp only at hok ⊢
        rcases List.mem_cons.mp hmem with he | hm
        · obtain ⟨h1, h2⟩ := Prod.mk.inj he
          rw [h1]
          exact List.mem_cons_self _ _
        · exact List.mem_cons_of_mem _ (ih hm hok)
      · rw [if_neg hemp] at hok ⊢
        rcases List.mem_cons.mp hmem with he | hm
        · exfalso
          obtain ⟨h1, h2⟩ := Prod.mk.inj he
          rw [← h2, hf] at hp
          have hfe : fields = [] := ((Option.some.injEq _ _).mp hp).symm
          exact hemp (by simp [hfe])
        · by_cases hokA : (write_outputs_run n0 (outRoot ++ [n0])
              transformed fields).2 = true
          · rw [if_pos hokA] at hok ⊢
            by_cases hokB : (write_pivots_run (outRoot ++ [n0]) transformed
                fields shared (productPivots p0)).2 = true
            · rw [if_pos hokB] at hok ⊢
              dsimp only at hok ⊢
              refine List.mem_cons_of_mem _ (List.mem_append.mpr (Or.inr ?_))
              exact ih hm hok
            · rw [if_neg hokB] at hok
              simp at hok
          · rw [if_neg hokA] at hok
            simp at hok

/-- C2, counterexample: a product resolving to zero fields still gets
its output directory created — `main` makes the product directory before
the empty-field check — contradicting "no output directory ... created". -/
theorem claim_C2_counterexample :
    main_run ["out"] false [] ⟨[], [], [], [], [("p", some ⟨[], [], []⟩)]⟩
      (fun _ => []) (fun _ _ => "") =
      ([FSEvent.mkdir ["out"], FSEvent.mkdir ["out", "p"]], true) ∧
    FSEvent.mkdir ["out", "p"] ∈
      (main_run ["out"] false [] ⟨[], [], [], [], [("p", some ⟨[], [], []⟩)]⟩
        (fun _ => []) (fun _ _ => "")).1 := by
  constructor
  · rfl
  · rw [show (main_run ["out"] false []
      ⟨[], [], [], [], [("p", some ⟨[], [], []⟩)]⟩
      (fun _ => []) (fun _ _ => "")).1 =
      [FSEvent.mkdir ["out"], FSEvent.mkdir ["out", "p"]] from rfl]
    simp

/-- C2 (amended): in a completed build, a product whose field list
resolves to empty produces no output files — nothing is ever written
strictly below its directory — but the product's directory itself *is*
created (the `mkdir` precedes the empty-field check), so the product is
not skipped entirely. -/
theorem claim_C2_empty_product (outRoot : List String) (dump : Bool)
    (crosswalk : List Row) (registry : RegistryConf)
    (loader : String → SourceData) (render : String → Row → String)
    (name : String) (product : Option Product)
    (fsAll : List (String × List String))
    (hmem : (name, product) ∈ registry.products)
    (hfsAll : parse_fieldsets registry.fieldsets = some fsAll)
    (hf : parse_product_fields product fsAll = some [])
    (hnodup : (registry.products.map Prod.fst).Nodup)
    (hok : (main_run outRoot dump crosswalk registry loader render).2 = true) :
    FSEvent.mkdir (outRoot ++ [name]) ∈
      (main_run outRoot dump crosswalk registry loader render).1 ∧
    ∀ path, FSEvent.writeFile path ∈
        (main_run outRoot dump crosswalk registry loader render).1 →
      underDir (outRoot ++ [name]) path = false := by
  unfold main_run at hok ⊢
  cases hb : build_intermediate crosswalk registry.sources loader render with
  | none =>
    rw [hb] at hok
    simp at hok
  | some inters =>
    rw [hb] at hok
    dsimp only at hok ⊢
    cases ht : transform_records inters registry.mappings with
    | none =>
      rw [ht] at hok
      simp at hok
    | some transformed =>
      rw [ht] at hok
      dsimp only at hok ⊢
      rw [hfsAll] at hok ⊢
      dsimp only at hok ⊢
      have hpok : (products_run outRoot transformed fsAll registry.pivots
          registry.products).2 = true := by simpa using hok
      constructor
      · refine List.mem_append.mpr (Or.inr ?_)
        exact products_run_empty_mkdir outRoot transformed fsAll
          registry.pivots registry.products name product hmem hf hpok
      · intro path hpath
        simp only [List.mem_append, List.mem_cons, List.mem_singleton] at hpath
        rcases hpath with (hpath | hpath) | hpath
        · exact absurd hpath (by simp)
        · have hpv : path = outRoot ++ ["intermediate.json"] := by
            cases dump with
            | true => simpa using hpath
            | false => simp at hpath
          rw [hpv]
          exact not_underDir_short _ _ (by simp)
        · obtain ⟨n, prodn, rest, fl, hmem', hpf, hfl, hpath', hr⟩ :=
            products_run_files outRoot transformed fsAll registry.pivots
              registry.products path hpath
          rw [hpath']
          by_cases hn : n = name
          · exfalso
            subst hn
            rw [nodup_keys_eq registry.products hnodup n prodn product
              hmem' hmem, hf] at hpf
            exact hfl (((Option.some.injEq _ _).mp hpf.symm))
          · exact not_underDir_sibling outRoot name n rest hn

/-- C2, witness for the amended theorem: the empty product's directory
event is in the completed build's trace. -/
theorem claim_C2_witness :
    FSEvent.mkdir ["out", "p"] ∈
      (main_run ["out"] false [] ⟨[], [], [], [], [("p", some ⟨[], [], []⟩)]⟩
        (fun _ => []) (fun _ _ => "")).1 :=
  (claim_C2_empty_product ["out"] false []
    ⟨[], [], [], [], [("p", some ⟨[], [], []⟩)]⟩
    (fun _ => []) (fun _ _ => "") "p" (some ⟨[], [], []⟩) []
    (by simp) (by decide) (by decide) (by simp) (by rfl)).1

/-! ## Claim C7: fieldset expansion algebra -/

theorem dedupFirstAux_eq_self {α : Type} [DecidableEq α] (seen : List α)
    (l : List α) (hnd : l.Nodup) (hdis : ∀ x ∈ l, x ∉ seen) :
    dedupFirstAux seen l = l := by
  induction l generalizing seen with
  | nil => rfl
  | cons x xs ih =>
    simp only [List.nodup_cons] at hnd
    rw [dedupFirstAux, if_neg (hdis x (by simp))]
    congr 1
    apply ih (x :: seen) hnd.2
    intro y hy hmem
    rcases List.mem_cons.mp hmem with he | hm
    · exact hnd.1 (he ▸ hy)
    · exact hdis y (List.mem_cons_of_mem _ hy) hm

theorem dedupFirst_nodup_id {α : Type} [DecidableEq α] (l : List α)
    (h : l.Nodup) : dedupFirst l = l :=
  dedupFirstAux_eq_self [] l h (by simp)

theorem aset_of_not_mem_keys {α β : Type} [DecidableEq α]
    (l : List (α × β)) (k : α) (v : β) (h : k ∉ l.map Prod.fst) :
    aset l k v = l ++ [(k, v)] := by
  induction l with
  | nil => simp [aset]
  | cons kv rest ih =>
    simp only [List.map_cons, List.mem_cons] at h
    push_neg at h
    rw [show aset (kv :: rest) k v = kv :: aset rest k v from by
      obtain ⟨a, b⟩ := kv
      rw [aset, if_neg (fun hc => h.1 hc.symm)]]
    rw [ih h.2]
    simp

theorem fieldsets_init_eq (input : List (String × FieldsetDef))
    (acc : List (String × List String))
    (hnd : (input.map Prod.fst).Nodup)
    (hdis : ∀ nfs ∈ input, nfs.1 ∉ acc.map Prod.fst) :
    input.foldl (fun acc nfs => aset acc nfs.1 nfs.2.fields) acc =
      acc ++ input.map (fun nfs => (nfs.1, nfs.2.fields)) := by
  induction input generalizing acc with
  | nil => simp
  | cons nfs rest ih =>
    simp only [List.map_cons, List.nodup_cons] at hnd
    rw [List.foldl_cons,
      aset_of_not_mem_keys acc nfs.1 nfs.2.fields (hdis nfs (by simp))]
    rw [ih (acc ++ [(nfs.1, nfs.2.fields)]) hnd.2]
    · simp
    · intro nfs' hm hmem
      rw [List.map_append, List.mem_append] at hmem
      rcases hmem with hl | hr
      · exact hdis nfs' (List.mem_cons_of_mem _ hm) hl
      · have he : nfs'.1 = nfs.1 := by simpa using hr
        exact hnd.1 (he ▸ List.mem_map_of_mem Prod.fst hm)

theorem fieldsets_pass2_no_refs (rem : List (String × FieldsetDef))
    (st : List (String × List String))
    (h : ∀ nfs ∈ rem, nfs.2.fieldsets = []) :
    fieldsets_pass2 st rem = some st := by
  induction rem generalizing st with
  | nil => rfl
  | cons nfs rest ih =>
    obtain ⟨name, fs⟩ := nfs
    have hfs : fs.fieldsets = [] := h (name, fs) (by simp)
    rw [fieldsets_pass2, hfs]
    simp only [List.foldlM_nil]
    exact ih st (fun nfs' hm => h nfs' (List.mem_cons_of_mem _ hm))

/-- C7: fieldset expansion is idempotent — on a registry whose fieldsets
are already fully expanded (direct fields only, no references, no
duplicates) it returns each fieldset's field list unchanged — and
product-field computation preserves first occurrence and removes
duplicates: for A = [x, y] and B = [y, z], a product over [A, B]
resolves to [x, y, z]. -/
theorem claim_C7_idempotent_dedup (input : List (String × FieldsetDef))
    (hnd : (input.map Prod.fst).Nodup)
    (hexp : ∀ nfs ∈ input, nfs.2.fieldsets = [] ∧ nfs.2.fields.Nodup) :
    parse_fieldsets input =
      some (input.map (fun nfs => (nfs.1, nfs.2.fields))) ∧
    parse_product_fields (some ⟨["A", "B"], [], []⟩)
      [("A", ["x", "y"]), ("B", ["y", "z"])] = some ["x", "y", "z"] := by
  constructor
  · unfold parse_fieldsets
    rw [fieldsets_init_eq input [] hnd (by simp), List.nil_append,
      fieldsets_pass2_no_refs input _ (fun nfs hm => (hexp nfs hm).1)]
    rw [show (match some (input.map (fun nfs => (nfs.1, nfs.2.fields))) with
        | some expanded =>
          some (expanded.map (fun nv => (nv.1, dedupFirst nv.2)))
        | none => none) =
        some ((input.map (fun nfs => (nfs.1, nfs.2.fields))).map
          (fun nv => (nv.1, dedupFirst nv.2))) from rfl]
    refine congrArg some ?_
    rw [List.map_map]
    apply List.map_congr_left
    intro nfs hm
    simp only [Function.comp_apply]
    rw [dedupFirst_nodup_id _ (hexp nfs hm).2]
  · decide

/-- C7, witness: expanding an already-expanded two-fieldset registry
returns it unchanged. -/
theorem claim_C7_witness :
    parse_fieldsets [("A", ⟨["x", "y"], []⟩), ("B", ⟨["y", "z"], []⟩)] =
      some [("A", ["x", "y"]), ("B", ["y", "z"])] := by
  have h := (claim_C7_idempotent_dedup
    [("A", ⟨["x", "y"], []⟩), ("B", ⟨["y", "z"], []⟩)]
    (by decide) (by decide)).1
  simpa using h

/-! ## Claim C9: mapping outputs override crosswalk fields -/

theorem alookup_foldl_aset (pairs : Row) (c : Row) (k : String)
    (hnd : (pairs.map Prod.fst).Nodup) :
    alookup (pairs.foldl (fun acc kv => aset acc kv.1 kv.2) c) k =
      match alookup pairs k with
      | some v => some v
      | none => alookup c k := by
  induction pairs generalizing c with
  | nil => simp [alookup]
  | cons kv rest ih =>
    obtain ⟨k1, v1⟩ := kv
    simp only [List.map_cons, List.nodup_cons] at hnd
    rw [List.foldl_cons, ih (aset c k1 v1) hnd.2]
    by_cases hk : k1 = k
    · subst hk
      have hrest : alookup rest k1 = none := by
        cases hl : alookup rest k1 with
        | none => rfl
        | some w =>
          exact absurd ((alookup_isSome_iff _ _).mp (by simp [hl])) hnd.1
      rw [hrest]
      simp [alookup, alookup_aset_self]
    · cases hl : alookup rest k with
      | some w => simp [alookup, hk, hl]
      | none =>
        simp [alookup, hk, hl,
          alookup_aset_other c k1 k v1 (fun hc => hk hc.symm)]

theorem aset_keys_nodup {α β : Type} [DecidableEq α] (l : List (α × β))
    (k : α) (v : β) (h : (l.map Prod.fst).Nodup) :
    ((aset l k v).map Prod.fst).Nodup := by
  induction l with
  | nil => simp [aset]
  | cons kv rest ih =>
    obtain ⟨a, b⟩ := kv
    simp only [List.map_cons, List.nodup_cons] at h
    by_cases hak : a = k
    · subst hak
      rw [show aset ((a, b) :: rest) a v = (a, v) :: rest from by simp [aset]]
      simp only [List.map_cons, List.nodup_cons]
      exact h
    · rw [show aset ((a, b) :: rest) k v = (a, b) :: aset rest k v from by
        simp [aset, hak]]
      simp only [List.map_cons, List.nodup_cons]
      refine ⟨?_, ih h.2⟩
      intro hmem
      rcases (mem_keys_aset_iff rest k a v).mp hmem with he | hm
      · exact hak he
      · exact h.1 hm

theorem transform_record_fold_nodup (I : Val) (mapping : List MappingRule)
    (acc pairs : Row) (hacc : (acc.map Prod.fst).Nodup)
    (h : mapping.foldlM
      (fun acc m => (transform_field I m.src).map (aset acc m.dest)) acc =
      some pairs) :
    (pairs.map Prod.fst).Nodup := by
  induction mapping generalizing acc with
  | nil =>
    simp only [List.foldlM_nil, Option.pure_def, Option.some.injEq] at h
    exact h ▸ hacc
  | cons m rest ih =>
    rw [List.foldlM_cons] at h
    cases hv : transform_field I m.src with
    | none => rw [hv] at h; simp at h
    | some v =>
      rw [hv] at h
      simp only [Option.map_some', Option.some_bind] at h
      exact ih (aset acc m.dest v) (aset_keys_nodup acc m.dest v hacc) h

theorem transform_record_fold_keys (I : Val) (mapping : List MappingRule)
    (acc pairs : Row)
    (h : mapping.foldlM
      (fun acc m => (transform_field I m.src).map (aset acc m.dest)) acc =
      some pairs) (d : String) :
    d ∈ pairs.map Prod.fst ↔
      d ∈ acc.map Prod.fst ∨ d ∈ mapping.map MappingRule.dest := by
  induction mapping generalizing acc with
  | nil =>
    simp only [List.foldlM_nil, Option.pure_def, Option.some.injEq] at h
    subst h
    simp
  | cons m rest ih =>
    rw [List.foldlM_cons] at h
    cases hv : transform_field I m.src with
    | none => rw [hv] at h; simp at h
    | some v =>
      rw [hv] at h
      simp only [Option.map_some', Option.some_bind] at h
      rw [ih (aset acc m.dest v) h]
      rw [mem_keys_aset_iff]
      simp only [List.map_cons, List.mem_cons]
      tauto

/-- The `src` of the last mapping rule declaring a given `dest` (the
rule whose value survives the dict comprehension of
`transform_record`). -/
def lastRuleSrc (mapping : List MappingRule) (dest : String) : Option Src :=
  ((mapping.filter (fun m => m.dest = dest)).getLast?).map MappingRule.src

theorem transform_record_fold_lookup (I : Val) (mapping : List MappingRule)
    (acc pairs : Row)
    (h : mapping.foldlM
      (fun acc m => (transform_field I m.src).map (aset acc m.dest)) acc =
      some pairs) (dest : String) :
    alookup pairs dest =
      match lastRuleSrc mapping dest with
      | some src => transform_field I src
      | none => alookup acc dest := by
  induction mapping generalizing acc with
  | nil =>
    simp only [List.foldlM_nil, Option.pure_def, Option.some.injEq] at h
    subst h
    simp [lastRuleSrc]
  | cons m rest ih =>
    rw [List.foldlM_cons] at h
    cases hv : transform_field I m.src with
    | none => rw [hv] at h; simp at h
    | some v =>
      rw [hv] at h
      simp only [Option.map_some', Option.some_bind] at h
      rw [ih (aset acc m.dest v) h]
      by_cases hm : m.dest = dest
      · subst hm
        cases hfe : rest.filter (fun m2 => m2.dest = m.dest) with
        | nil =>
          have h1 : lastRuleSrc rest m.dest = none := by
            unfold lastRuleSrc
            rw [hfe]
            rfl
          have h2 : lastRuleSrc (m :: rest) m.dest = some m.src := by
            unfold lastRuleSrc
            rw [List.filter_cons_of_pos (by simp), hfe]
            rfl
          rw [h1, h2]
          show alookup (aset acc m.dest v) m.dest = transform_field I m.src
          rw [hv]
          exact alookup_aset_self acc m.dest v
        | cons a l =>
          have h1 : lastRuleSrc rest m.dest =
              ((a :: l).getLast?).map MappingRule.src := by
            unfold lastRuleSrc
            rw [hfe]
          have h2 : lastRuleSrc (m :: rest) m.dest =
              ((a :: l).getLast?).map MappingRule.src := by
            unfold lastRuleSrc
            rw [List.filter_cons_of_pos (by simp), hfe]
            rfl
          rw [h1, h2]
          rfl
      · have hfeq : lastRuleSrc (m :: rest) dest = lastRuleSrc rest dest := by
          unfold lastRuleSrc
          rw [List.filter_cons_of_neg (by simp [hm])]
        rw [hfeq]
        cases lastRuleSrc rest dest with
        | some src => rfl
        | none =>
          exact alookup_aset_other acc m.dest dest v (fun hc => hm hc.symm)

/-- C9: for an identity whose crosswalk record already holds a field
named like a mapping rule's `dest`, the produced output record holds the
Field Resolver's output for the (last) rule with that `dest` — the dict
`update` makes mapping outputs override crosswalk fields in the merge,
whatever value the crosswalk held there. -/
theorem claim_C9_mapping_overrides (inter : Row) (c : Row)
    (mappings : List MappingRule) (out : Row) (dest : String) (src : Src)
    (hc : alookup inter "crosswalk" = some (.vdict c))
    (hout : output_for inter mappings = some out)
    (hsrc : lastRuleSrc mappings dest = some src) :
    alookup out dest = transform_field (.vdict inter) src := by
  unfold output_for at hout
  rw [hc] at hout
  cases ht : transform_record (.vdict inter) mappings with
  | none => rw [ht] at hout; simp at hout
  | some pairs =>
    rw [ht] at hout
    simp only [Option.some.injEq] at hout
    subst hout
    have hnd : (pairs.map Prod.fst).Nodup :=
      transform_record_fold_nodup (.vdict inter) mappings [] pairs (by simp) ht
    have hl2 : alookup pairs dest = transform_field (.vdict inter) src := by
      rw [transform_record_fold_lookup (.vdict inter) mappings [] pairs ht dest,
        hsrc]
    have hfil_ne : mappings.filter (fun m2 => m2.dest = dest) ≠ [] := by
      intro hce
      unfold lastRuleSrc at hsrc
      rw [hce] at hsrc
      simp at hsrc
    obtain ⟨mlast, hml⟩ := List.exists_mem_of_ne_nil _ hfil_ne
    have hdm : mlast.dest = dest := by
      have hf := List.of_mem_filter hml
      simpa using hf
    have hmem : dest ∈ pairs.map Prod.fst := by
      rw [transform_record_fold_keys (.vdict inter) mappings [] pairs ht dest]
      right
      exact hdm ▸ List.mem_map_of_mem MappingRule.dest (List.mem_of_mem_filter hml)
    obtain ⟨w, hw⟩ :=
      Option.isSome_iff_exists.mp ((alookup_isSome_iff pairs dest).mpr hmem)
    rw [alookup_foldl_aset pairs c dest hnd, hw]
    rw [hw] at hl2
    exact hl2

/-- C9, witness: the crosswalk holds name = "orig", the mapping resolves
name = "resolved" from a source record, and the output record holds the
resolved value, not the crosswalk one. -/
theorem claim_C9_witness :
    alookup [("name", Val.vstr "resolved")] "name" =
      transform_field
        (Val.vdict [("crosswalk", Val.vdict [("name", Val.vstr "orig")]),
                    ("s", Val.vdict [("name", Val.vstr "resolved")])])
        (Src.single "s.name") ∧
    (Val.vstr "orig") ≠ (Val.vstr "resolved") :=
  ⟨claim_C9_mapping_overrides
    [("crosswalk", Val.vdict [("name", Val.vstr "orig")]),
     ("s", Val.vdict [("name", Val.vstr "resolved")])]
    [("name", Val.vstr "orig")]
    [⟨"name", Src.single "s.name"⟩]
    [("name", Val.vstr "resolved")] "name" (Src.single "s.name")
    (by decide) (by decide) (by decide), by decide⟩

/-! ## Claim C5: join correctness of the Intermediate Builder -/

theorem source_step_preserves (render : String → Row → String)
    (conf : SourceConf) (data : SourceData) (c : Row) (d1 : SourceData)
    (k : Val) (h : source_step render conf data c = some d1)
    (hk : k ≠ (alookup c conf.crosswalk_key).getD .vnull) :
    alookup d1 k = alookup data k := by
  simp only [source_step] at h
  by_cases hh : ((alookup c conf.crosswalk_key).getD .vnull).hashable = false
  · rw [if_pos hh] at h
    simp at h
  · rw [if_neg hh] at h
    cases hl : alookup data ((alookup c conf.crosswalk_key).getD .vnull) with
    | some r =>
      simp only [hl] at h
      by_cases he : r.isEmpty
      · rw [if_pos he] at h
        simp only [Option.some.injEq] at h
        rw [← h]
      · rw [if_neg he] at h
        simp only [Option.some.injEq] at h
        rw [← h]
        exact alookup_aset_other data _ k _ hk
    | none =>
      simp only [hl] at h
      simp only [Option.some.injEq] at h
      rw [← h]

theorem source_final_preserves (render : String → Row → String)
    (conf : SourceConf) (players : List Row) (data dataF : SourceData)
    (k : Val) (hF : source_final render conf data players = some dataF)
    (hk : ∀ c ∈ players, k ≠ (alookup c conf.crosswalk_key).getD .vnull) :
    alookup dataF k = alookup data k := by
  induction players generalizing data with
  | nil =>
    unfold source_final at hF
    simp only [List.foldlM_nil, Option.pure_def, Option.some.injEq] at hF
    rw [← hF]
  | cons c rest ih =>
    unfold source_final at hF
    rw [List.foldlM_cons] at hF
    cases hs : source_step render conf data c with
    | none => rw [hs] at hF; simp at hF
    | some d1 =>
      rw [hs] at hF
      rw [ih d1 hF (fun c' h' => hk c' (List.mem_cons_of_mem _ h'))]
      exact source_step_preserves render conf data c d1 k hs (hk c (by simp))

theorem source_final_lookup (render : String → Row → String)
    (conf : SourceConf) (players : List Row) (data0 dataF : SourceData)
    (hF : source_final render conf data0 players = some dataF)
    (hnd : (players.map
      (fun c => (alookup c conf.crosswalk_key).getD .vnull)).Nodup)
    (c : Row) (hc : c ∈ players) :
    alookup dataF ((alookup c conf.crosswalk_key).getD .vnull) =
      (alookup data0 ((alookup c conf.crosswalk_key).getD .vnull)).map
        (fun r => if r.isEmpty then r
          else preprocess_source render r conf.preprocess) := by
  induction players generalizing data0 with
  | nil => simp at hc
  | cons p rest ih =>
    simp only [List.map_cons, List.nodup_cons] at hnd
    unfold source_final at hF
    rw [List.foldlM_cons] at hF
    cases hs : source_step render conf data0 p with
    | none => rw [hs] at hF; simp at hF
    | some d1 =>
      rw [hs] at hF
      rcases List.mem_cons.mp hc with he | hm
      · subst he
        have hpres : alookup dataF ((alookup c conf.crosswalk_key).getD .vnull) =
            alookup d1 ((alookup c conf.crosswalk_key).getD .vnull) := by
          apply source_final_preserves render conf rest d1 dataF _ hF
          intro c' h' hceq
          exact hnd.1 (hceq ▸ List.mem_map_of_mem _ h')
        rw [hpres]
        simp only [source_step] at hs
        by_cases hh : ((alookup c conf.crosswalk_key).getD .vnull).hashable = false
        · rw [if_pos hh] at hs
          simp at hs
        · rw [if_neg hh] at hs
          cases hl : alookup data0 ((alookup c conf.crosswalk_key).getD .vnull) with
          | some r =>
            simp only [hl] at hs
            by_cases hemp : r.isEmpty
            · rw [if_pos hemp] at hs
              simp only [Option.some.injEq] at hs
              rw [← hs, hl]
              have hre : r = [] := by simpa using hemp
              rw [hre]
              simp
            · rw [if_neg hemp] at hs
              simp only [Option.some.injEq] at hs
              rw [← hs]
              simp only [Option.map_some', if_neg hemp]
              exact alookup_aset_self data0 _ _
          | none =>
            simp only [hl] at hs
            simp only [Option.some.injEq] at hs
            rw [← hs, hl]
            rfl
      · have hne : (alookup c conf.crosswalk_key).getD .vnull ≠
            (alookup p conf.crosswalk_key).getD .vnull := by
          intro hceq
          exact hnd.1 (hceq ▸ List.mem_map_of_mem _ hm)
        rw [ih d1 hF hnd.2 hm]
        rw [source_step_preserves render conf data0 p d1 _ hs hne]

/-- C5 (amended): for each identity, the record attached under a
source's name equals the source mapping's entry at the identity's
crosswalk value after a *single* application of the preprocessing
transforms (or that entry unchanged when it is empty, or the empty
mapping when the crosswalk value has no entry) — *provided* no two
identities share the same crosswalk value for that source. Records are
preprocessed in place inside the shared source mapping, so identities
sharing a join-key value would see the transforms applied once per
matching identity. -/
theorem claim_C5_join (render : String → Row → String) (name : String)
    (conf : SourceConf) (data0 : SourceData) (inters out : List (Val × Row))
    (hout : attach_source render inters name conf data0 = some out)
    (hdistinct : (inters.map (fun pr =>
      (alookup (crosswalk_of pr.2) conf.crosswalk_key).getD .vnull)).Nodup) :
    out = inters.map (fun pr =>
      (pr.1, aset pr.2 name (Val.vdict
        (match alookup data0
            ((alookup (crosswalk_of pr.2) conf.crosswalk_key).getD .vnull) with
        | some r => if r.isEmpty then r
            else preprocess_source render r conf.preprocess
        | none => [])))) := by
  unfold attach_source at hout
  cases hF : source_final render conf data0
      (inters.map (fun pr => crosswalk_of pr.2)) with
  | none => rw [hF] at hout; simp at hout
  | some dataF =>
    rw [hF] at hout
    simp only [Option.some.injEq] at hout
    rw [← hout]
    apply List.map_congr_left
    intro pr hpr
    have hl := source_final_lookup render conf
      (inters.map (fun pr => crosswalk_of pr.2)) data0 dataF hF
      (by rw [List.map_map]; exact hdistinct)
      (crosswalk_of pr.2) (List.mem_map_of_mem _ hpr)
    unfold attached
    rw [hl]
    cases alookup data0
        ((alookup (crosswalk_of pr.2) conf.crosswalk_key).getD .vnull) with
    | some r => rfl
    | none => rfl

/-- A concrete renderer standing for the Jinja template `{{ "{{x}}!" }}`:
read field x and append an exclamation mark. -/
def bangRender : String → Row → String := fun _ d =>
  (match alookup d "x" with
   | some (Val.vstr s) => s
   | _ => "") ++ "!"

/-- C5, counterexample: two identities sharing the crosswalk value "K"
alias the same source record, which is preprocessed in place once per
identity — both end up with the twice-transformed value "v!!", not the
claimed entry-after-preprocessing "v!". -/
theorem claim_C5_counterexample :
    build_intermediate
      [[("prism_id", Val.vint 1), ("k", Val.vstr "K")],
       [("prism_id", Val.vint 2), ("k", Val.vstr "K")]]
      [("s", ⟨"k", [⟨"x", "T"⟩]⟩)]
      (fun _ => [(Val.vstr "K", [("x", Val.vstr "v")])])
      bangRender =
      some [(Val.vint 1,
              [("crosswalk", Val.vdict [("prism_id", Val.vint 1),
                                         ("k", Val.vstr "K")]),
               ("s", Val.vdict [("x", Val.vstr "v!!")])]),
            (Val.vint 2,
              [("crosswalk", Val.vdict [("prism_id", Val.vint 2),
                                         ("k", Val.vstr "K")]),
               ("s", Val.vdict [("x", Val.vstr "v!!")])])] ∧
    preprocess_source
      bangRender
      [("x", Val.vstr "v")] [⟨"x", "T"⟩] = [("x", Val.vstr "v!")] ∧
    Val.vstr "v!!" ≠ Val.vstr "v!" := by
  refine ⟨rfl, rfl, by decide⟩

/-- C5, witness for the amended theorem: with a single identity (all
join values distinct), the attached record is the entry preprocessed
exactly once. -/
theorem claim_C5_witness :
    [(Val.vint 1,
       [("crosswalk", Val.vdict [("prism_id", Val.vint 1),
                                  ("k", Val.vstr "K")]),
        ("s", Val.vdict [("x", Val.vstr "v!")])])] =
      [(Val.vint 1,
         [("crosswalk", Val.vdict [("prism_id", Val.vint 1),
                                    ("k", Val.vstr "K")])])].map
        (fun pr =>
          (pr.1, aset pr.2 "s" (Val.vdict
            (match alookup [(Val.vstr "K", [("x", Val.vstr "v")])]
                ((alookup (crosswalk_of pr.2)
                  (SourceConf.mk "k" [⟨"x", "T"⟩]).crosswalk_key).getD
                    .vnull) with
            | some r => if r.isEmpty then r
                else preprocess_source bangRender r (SourceConf.mk "k" [⟨"x", "T"⟩]).preprocess
            | none => [])))) :=
  claim_C5_join
    bangRender
    "s" (SourceConf.mk "k" [⟨"x", "T"⟩])
    [(Val.vstr "K", [("x", Val.vstr "v")])]
    [(Val.vint 1,
       [("crosswalk", Val.vdict [("prism_id", Val.vint 1),
                                  ("k", Val.vstr "K")])])]
    [(Val.vint 1,
       [("crosswalk", Val.vdict [("prism_id", Val.vint 1),
                                  ("k", Val.vstr "K")]),
        ("s", Val.vdict [("x", Val.vstr "v!")])])]
    rfl (by decide)

/-! ## Claims C6 and C10: the Pivot Builder -/

theorem charsLtB_trans (a : List Char) : ∀ b c : List Char,
    charsLtB a b = true → charsLtB b c = true → charsLtB a c = true := by
  induction a with
  | nil =>
    intro b c h1 h2
    cases b with
    | nil => simp [charsLtB] at h1
    | cons y ys =>
      cases c with
      | nil => simp [charsLtB] at h2
      | cons z zs => simp [charsLtB]
  | cons x xs ih =>
    intro b c h1 h2
    cases b with
    | nil => simp [charsLtB] at h1
    | cons y ys =>
      cases c with
      | nil => simp [charsLtB] at h2
      | cons z zs =>
        simp only [charsLtB] at h1 h2 ⊢
        by_cases hxy : x < y
        · rw [if_pos hxy] at h1
          by_cases hyz : y < z
          · rw [if_pos (lt_trans hxy hyz)]
          · rw [if_neg hyz] at h2
            by_cases hzy : z < y
            · rw [if_pos hzy] at h2
              simp at h2
            · rw [if_neg hzy] at h2
              have hyez : y = z := le_antisymm (not_lt.mp hzy) (not_lt.mp hyz)
              rw [if_pos (hyez ▸ hxy)]
        · rw [if_neg hxy] at h1
          by_cases hyx : y < x
          · rw [if_pos hyx] at h1
            simp at h1
          · rw [if_neg hyx] at h1
            have hxey : x = y := le_antisymm (not_lt.mp hyx) (not_lt.mp hxy)
            by_cases hyz : y < z
            · rw [if_pos (hxey ▸ hyz)]
            · rw [if_neg hyz] at h2
              by_cases hzy : z < y
              · rw [if_pos hzy] at h2
                simp at h2
              · rw [if_neg hzy] at h2
                have hyez : y = z := le_antisymm (not_lt.mp hzy) (not_lt.mp hyz)
                rw [if_neg (hyez ▸ hxey ▸ hxy), if_neg (hyez ▸ hxey ▸ hyx)]
                exact ih ys zs h1 h2

theorem charsLtB_asymm (a : List Char) : ∀ b : List Char,
    charsLtB a b = true → charsLtB b a = false := by
  induction a with
  | nil =>
    intro b h
    cases b with
    | nil => simp [charsLtB] at h
    | cons y ys => simp [charsLtB]
  | cons x xs ih =>
    intro b h
    cases b with
    | nil => simp [charsLtB] at h
    | cons y ys =>
      simp only [charsLtB] at h ⊢
      by_cases hxy : x < y
      · rw [if_neg (lt_asymm hxy), if_pos hxy]
      · rw [if_neg hxy] at h
        by_cases hyx : y < x
        · rw [if_pos hyx] at h
          simp at h
        · rw [if_neg hyx] at h
          rw [if_neg hyx, if_neg hxy]
          exact ih ys h

theorem strLtB_trans (a b c : String) (h1 : strLtB a b = true)
    (h2 : strLtB b c = true) : strLtB a c = true :=
  charsLtB_trans a.data b.data c.data h1 h2

theorem strLtB_asymm (a b : String) (h : strLtB a b = true) :
    strLtB b a = false :=
  charsLtB_asymm a.data b.data h

theorem mem_insertSortedPair {β : Type} (p x : String × β)
    (l : List (String × β)) :
    x ∈ insertSortedPair p l ↔ x = p ∨ x ∈ l := by
  induction l with
  | nil => simp [insertSortedPair]
  | cons q qs ih =>
    rw [insertSortedPair]
    by_cases h : strLtB p.1 q.1
    · rw [if_pos h]
      simp only [List.mem_cons]
    · rw [if_neg h]
      simp only [List.mem_cons, ih]
      tauto

theorem insertSortedPair_pairwise {β : Type} (p : String × β)
    (l : List (String × β))
    (h : List.Pairwise (fun a b : String × β => strLtB b.1 a.1 = false) l) :
    List.Pairwise (fun a b : String × β => strLtB b.1 a.1 = false)
      (insertSortedPair p l) := by
  induction l with
  | nil => simp [insertSortedPair]
  | cons q qs ih =>
    rw [List.pairwise_cons] at h
    rw [insertSortedPair]
    by_cases hlt : strLtB p.1 q.1
    · rw [if_pos hlt]
      rw [List.pairwise_cons]
      constructor
      · intro x hx
        rcases List.mem_cons.mp hx with he | hm
        · subst he
          exact strLtB_asymm _ _ hlt
        · by_contra hc
          rw [Bool.not_eq_false] at hc
          have hxq : strLtB x.1 q.1 = true := strLtB_trans _ _ _ hc hlt
          rw [h.1 x hm] at hxq
          exact Bool.false_ne_true hxq
      · exact List.pairwise_cons.mpr h
    · rw [if_neg hlt]
      rw [List.pairwise_cons]
      constructor
      · intro x hx
        rcases (mem_insertSortedPair p x qs).mp hx with he | hm
        · subst he
          simpa using hlt
        · exact h.1 x hm
      · exact ih h.2

theorem sortPairs_sorted {β : Type} (l : List (String × β)) :
    List.Pairwise (fun a b : String × β => strLtB b.1 a.1 = false)
      (sortPairs l) := by
  induction l with
  | nil => simp [sortPairs]
  | cons p ps ih => exact insertSortedPair_pairwise p _ ih

/-- The rows whose substituted grouping key equals `k` (the claim's
notion of the records matching a bucket). -/
def matchingRows (data : List Row) (f : String) (nk : Val) (k : Val) :
    List Row :=
  data.filter (fun row => decide (substKey row f nk = k))

/-- The projected row a pivot bucket stores (total form; the pivot
claims only use it where `filter_and_nest_row` succeeded). -/
def projRow (row : Row) (fields : List String) : Row :=
  (filter_and_nest_row row fields).getD []

theorem write_pivot_step_flat (pf : PivotField) (fields : List String)
    (hsf : pf.subfield = none) (accB : List (Val × Bucket)) (row : Row) :
    write_pivot_step pf fields (.flat accB) row =
      if (substKey row pf.field pf.null_key).truthy = false then
        some (.flat accB)
      else if (substKey row pf.field pf.null_key).hashable = false then none
      else
        (filter_and_nest_row row fields).map (fun row_data =>
          if pf.is_array then
            POut.flat (aset accB (substKey row pf.field pf.null_key)
              (.arr (armOf (alookup accB (substKey row pf.field pf.null_key))
                ++ [row_data])))
          else
            POut.flat (aset accB (substKey row pf.field pf.null_key)
              (.single row_data))) := by
  simp only [write_pivot_step, hsf]

theorem matchingRows_cons_of_eq (row : Row) (rest : List Row) (f : String)
    (nk k : Val) (h : substKey row f nk = k) :
    matchingRows (row :: rest) f nk k = row :: matchingRows rest f nk k := by
  unfold matchingRows
  rw [List.filter_cons_of_pos (by simp [h])]

theorem matchingRows_cons_of_ne (row : Row) (rest : List Row) (f : String)
    (nk k : Val) (h : substKey row f nk ≠ k) :
    matchingRows (row :: rest) f nk k = matchingRows rest f nk k := by
  unfold matchingRows
  rw [List.filter_cons_of_neg (by simp [h])]

theorem pivot_flat_fold_arr (pf : PivotField) (fields : List String)
    (hsf : pf.subfield = none) (hArr : pf.is_array = true)
    (rows : List Row) :
    ∀ accB outB : List (Val × Bucket),
    rows.foldlM (write_pivot_step pf fields) (POut.flat accB) =
      some (POut.flat outB) →
    ∀ k : Val, k.truthy = true →
    alookup outB k =
      match matchingRows rows pf.field pf.null_key k with
      | [] => alookup accB k
      | m => some (.arr (armOf (alookup accB k) ++
          m.map (fun r => projRow r fields))) := by
  induction rows with
  | nil =>
    intro accB outB hfold k hk
    simp only [List.foldlM_nil, Option.pure_def, Option.some.injEq,
      POut.flat.injEq] at hfold
    subst hfold
    rfl
  | cons row rest ih =>
    intro accB outB hfold k hk
    rw [List.foldlM_cons, write_pivot_step_flat pf fields hsf accB row] at hfold
    by_cases htr : (substKey row pf.field pf.null_key).truthy = false
    · rw [if_pos htr] at hfold
      have hne : substKey row pf.field pf.null_key ≠ k := by
        intro hc
        rw [hc, hk] at htr
        exact Bool.false_ne_true htr.symm
      rw [matchingRows_cons_of_ne row rest _ _ _ hne]
      exact ih accB outB hfold k hk
    · rw [if_neg htr] at hfold
      by_cases hh : (substKey row pf.field pf.null_key).hashable = false
      · rw [if_pos hh] at hfold
        simp at hfold
      · rw [if_neg hh] at hfold
        cases hfnr : filter_and_nest_row row fields with
        | none =>
          rw [hfnr] at hfold
          simp at hfold
        | some row_data =>
          rw [hfnr] at hfold
          simp only [Option.map_some', hArr, if_true] at hfold
          have hproj : projRow row fields = row_data := by
            unfold projRow
            rw [hfnr]
            rfl
          by_cases hkk : substKey row pf.field pf.null_key = k
          · rw [matchingRows_cons_of_eq row rest _ _ _ hkk]
            rw [hkk] at hfold
            have hih := ih _ _ hfold k hk
            rw [alookup_aset_self accB k
              (Bucket.arr (armOf (alookup accB k) ++ [row_data]))] at hih
            cases hmr : matchingRows rest pf.field pf.null_key k with
            | nil =>
              rw [hmr] at hih
              rw [hih]
              simp [hproj]
            | cons r rs =>
              rw [hmr] at hih
              rw [hih]
              simp [hproj, armOf, List.append_assoc]
          · rw [matchingRows_cons_of_ne row rest _ _ _ hkk]
            have hih := ih _ _ hfold k hk
            rw [alookup_aset_other accB _ k _ (fun hc => hkk hc.symm)] at hih
            exact hih

theorem getLast?_cons_isSome {α : Type} (a : α) (l : List α) :
    ((a :: l).getLast?).isSome = true := by
  induction l generalizing a with
  | nil => rfl
  | cons b bs ih =>
    rw [List.getLast?_cons_cons]
    exact ih b

theorem pivot_flat_fold_single (pf : PivotField) (fields : List String)
    (hsf : pf.subfield = none) (hArr : pf.is_array = false)
    (rows : List Row) :
    ∀ accB outB : List (Val × Bucket),
    rows.foldlM (write_pivot_step pf fields) (POut.flat accB) =
      some (POut.flat outB) →
    ∀ k : Val, k.truthy = true →
    alookup outB k =
      match (matchingRows rows pf.field pf.null_key k).getLast? with
      | none => alookup accB k
      | some r => some (.single (projRow r fields)) := by
  induction rows with
  | nil =>
    intro accB outB hfold k hk
    simp only [List.foldlM_nil, Option.pure_def, Option.some.injEq,
      POut.flat.injEq] at hfold
    subst hfold
    rfl
  | cons row rest ih =>
    intro accB outB hfold k hk
    rw [List.foldlM_cons, write_pivot_step_flat pf fields hsf accB row] at hfold
    by_cases htr : (substKey row pf.field pf.null_key).truthy = false
    · rw [if_pos htr] at hfold
      have hne : substKey row pf.field pf.null_key ≠ k := by
        intro hc
        rw [hc, hk] at htr
        exact Bool.false_ne_true htr.symm
      rw [matchingRows_cons_of_ne row rest _ _ _ hne]
      exact ih accB outB hfold k hk
    · rw [if_neg htr] at hfold
      by_cases hh : (substKey row pf.field pf.null_key).hashable = false
      · rw [if_pos hh] at hfold
        simp at hfold
      · rw [if_neg hh] at hfold
        cases hfnr : filter_and_nest_row row fields with
        | none =>
          rw [hfnr] at hfold
          simp at hfold
        | some row_data =>
          rw [hfnr] at hfold
          simp only [Option.map_some', hArr, Bool.false_eq_true, if_false] at hfold
          have hproj : projRow row fields = row_data := by
            unfold projRow
            rw [hfnr]
            rfl
          by_cases hkk : substKey row pf.field pf.null_key = k
          · rw [matchingRows_cons_of_eq row rest _ _ _ hkk]
            rw [hkk] at hfold
            have hih := ih _ _ hfold k hk
            rw [alookup_aset_self accB k (Bucket.single row_data)] at hih
            cases hmr : matchingRows rest pf.field pf.null_key k with
            | nil =>
              rw [hmr] at hih
              rw [hih]
              simp [hproj]
            | cons r rs =>
              rw [hmr] at hih
              rw [hih]
              rw [List.getLast?_cons_cons]
              cases hgl : (r :: rs).getLast? with
              | none =>
                have hsm := getLast?_cons_isSome r rs
                rw [hgl] at hsm
                simp at hsm
              | some q => rfl
          · rw [matchingRows_cons_of_ne row rest _ _ _ hkk]
            have hih := ih _ _ hfold k hk
            rw [alookup_aset_other accB _ k _ (fun hc => hkk hc.symm)] at hih
            exact hih

theorem pivot_flat_fold_falsy (pf : PivotField) (fields : List String)
    (hsf : pf.subfield = none) (rows : List Row) :
    ∀ accB outB : List (Val × Bucket),
    rows.foldlM (write_pivot_step pf fields) (POut.flat accB) =
      some (POut.flat outB) →
    ∀ k : Val, k.truthy = false → alookup outB k = alookup accB k := by
  induction rows with
  | nil =>
    intro accB outB hfold k hk
    simp only [List.foldlM_nil, Option.pure_def, Option.some.injEq,
      POut.flat.injEq] at hfold
    subst hfold
    rfl
  | cons row rest ih =>
    intro accB outB hfold k hk
    rw [List.foldlM_cons, write_pivot_step_flat pf fields hsf accB row] at hfold
    by_cases htr : (substKey row pf.field pf.null_key).truthy = false
    · rw [if_pos htr] at hfold
      exact ih accB outB hfold k hk
    · rw [if_neg htr] at hfold
      by_cases hh : (substKey row pf.field pf.null_key).hashable = false
      · rw [if_pos hh] at hfold
        simp at hfold
      · rw [if_neg hh] at hfold
        cases hfnr : filter_and_nest_row row fields with
        | none =>
          rw [hfnr] at hfold
          simp at hfold
        | some row_data =>
          rw [hfnr] at hfold
          have hne : k ≠ substKey row pf.field pf.null_key := by
            intro hc
            rw [← hc, hk] at htr
            exact htr rfl
          cases hA : pf.is_array with
          | true =>
            simp only [Option.map_some', hA, if_true] at hfold
            have hih := ih _ _ hfold k hk
            rw [alookup_aset_other accB _ k _ hne] at hih
            exact hih
          | false =>
            simp only [Option.map_some', hA, Bool.false_eq_true, if_false] at hfold
            have hih := ih _ _ hfold k hk
            rw [alookup_aset_other accB _ k _ hne] at hih
            exact hih

theorem pivot_fold_flat_shape (pf : PivotField) (fields : List String)
    (hsf : pf.subfield = none) (rows : List Row) :
    ∀ accB (out : POut),
    rows.foldlM (write_pivot_step pf fields) (POut.flat accB) = some out →
    ∃ outB, out = POut.flat outB := by
  induction rows with
  | nil =>
    intro accB out h
    simp only [List.foldlM_nil, Option.pure_def, Option.some.injEq] at h
    exact ⟨accB, h.symm⟩
  | cons row rest ih =>
    intro accB out h
    rw [List.foldlM_cons, write_pivot_step_flat pf fields hsf accB row] at h
    by_cases htr : (substKey row pf.field pf.null_key).truthy = false
    · rw [if_pos htr] at h
      exact ih accB out h
    · rw [if_neg htr] at h
      by_cases hh : (substKey row pf.field pf.null_key).hashable = false
      · rw [if_pos hh] at h
        simp at h
      · rw [if_neg hh] at h
        cases hfnr : filter_and_nest_row row fields with
        | none =>
          rw [hfnr] at h
          simp at h
        | some row_data =>
          rw [hfnr] at h
          cases hA : pf.is_array with
          | true =>
            simp only [Option.map_some', hA, if_true] at h
            exact ih _ out h
          | false =>
            simp only [Option.map_some', hA, Bool.false_eq_true, if_false] at h
            exact ih _ out h

/-- C6: for a single-level pivot, each record's grouping key is its
value at the pivot field with `null_key` substituted when falsy; records
whose substituted key is still falsy appear in no bucket (dropped, not
an error); a truthy key's bucket holds, in array mode, the ordered list
of projections of its matching records, and in single mode the
projection of the last matching record; and the persisted document's
top-level keys are the string forms of the keys, sorted ascending
lexicographically. -/
theorem claim_C6_single_pivot (pf : PivotField) (data : List Row)
    (fields : List String) (out : List (String × Bucket))
    (hsf : pf.subfield = none)
    (hout : write_pivot pf data fields = some (.flat out)) :
    List.Pairwise (fun a b : String × Bucket => strLtB b.1 a.1 = false) out ∧
    ∃ buckets, write_pivot_data pf data fields = some (.flat buckets) ∧
      out = sortPairs (buckets.map (fun kv => (pyStr kv.1, kv.2))) ∧
      (∀ k : Val, k.truthy = false → alookup buckets k = none) ∧
      (pf.is_array = true → ∀ k : Val, k.truthy = true →
        alookup buckets k =
          match matchingRows data pf.field pf.null_key k with
          | [] => none
          | m => some (.arr (m.map (fun r => projRow r fields)))) ∧
      (pf.is_array = false → ∀ k : Val, k.truthy = true →
        alookup buckets k =
          match (matchingRows data pf.field pf.null_key k).getLast? with
          | none => none
          | some r => some (.single (projRow r fields))) := by
  unfold write_pivot at hout
  cases hwd : write_pivot_data pf data fields with
  | none =>
    rw [hwd] at hout
    simp at hout
  | some out0 =>
    rw [hwd] at hout
    have hinit : write_pivot_data pf data fields =
        data.foldlM (write_pivot_step pf fields) (POut.flat []) := by
      unfold write_pivot_data
      rw [hsf]
    obtain ⟨buckets, hb⟩ :=
      pivot_fold_flat_shape pf fields hsf data [] out0 (hinit ▸ hwd)
    subst hb
    dsimp only at hout
    have hsort : sortByStrKey buckets = some out := by
      cases hs : sortByStrKey (β := Bucket) buckets with
      | none =>
        rw [hs] at hout
        simp at hout
      | some s =>
        rw [hs] at hout
        simp only [Option.map_some', Option.some.injEq, PivotJson.flat.injEq] at hout
        rw [hout]
    have hfold : data.foldlM (write_pivot_step pf fields) (POut.flat []) =
        some (POut.flat buckets) := hinit ▸ hwd
    have hout_eq : out = sortPairs (buckets.map (fun kv => (pyStr kv.1, kv.2))) := by
      unfold sortByStrKey at hsort
      by_cases hnd : ((buckets.map (fun kv => (pyStr kv.1, kv.2))).map
          Prod.fst).Nodup
      · rw [if_pos hnd] at hsort
        exact ((Option.some.injEq _ _).mp hsort).symm
      · rw [if_neg hnd] at hsort
        simp at hsort
    refine ⟨?_, buckets, rfl, hout_eq, ?_, ?_, ?_⟩
    · rw [hout_eq]
      exact sortPairs_sorted _
    · intro k hk
      have h := pivot_flat_fold_falsy pf fields hsf data [] buckets hfold k hk
      simpa [alookup] using h
    · intro hArr k hk
      have h := pivot_flat_fold_arr pf fields hsf hArr data [] buckets hfold k hk
      rw [h]
      cases matchingRows data pf.field pf.null_key k with
      | nil => rfl
      | cons r rs =>
        simp [alookup, armOf]
    · intro hArr k hk
      have h := pivot_flat_fold_single pf fields hsf hArr data [] buckets hfold k hk
      rw [h]
      cases (matchingRows data pf.field pf.null_key k).getLast? with
      | none => rfl
      | some r => rfl

/-- C6, witness: a concrete three-record array-mode pivot groups by team
into sorted buckets A, B. -/
theorem claim_C6_witness :
    List.Pairwise (fun a b : String × Bucket => strLtB b.1 a.1 = false)
      [("A", Bucket.arr [[("id", Val.vint 1)], [("id", Val.vint 2)]]),
       ("B", Bucket.arr [[("id", Val.vint 3)]])] :=
  (claim_C6_single_pivot ⟨"team", none, "by_team", true, .vnull⟩
    [[("team", Val.vstr "B"), ("id", Val.vint 3)],
     [("team", Val.vstr "A"), ("id", Val.vint 1)],
     [("team", Val.vstr "A"), ("id", Val.vint 2)]]
    ["id"]
    [("A", Bucket.arr [[("id", Val.vint 1)], [("id", Val.vint 2)]]),
     ("B", Bucket.arr [[("id", Val.vint 3)]])]
    rfl (by decide)).1

/-- The list held by the array-mode inner bucket at outer key `k`,
inner key `j` of a two-level pivot state. -/
def innerArm (outer : List (Val × List (Val × Bucket))) (k j : Val) :
    List Row :=
  armOf (alookup ((alookup outer k).getD []) j)

theorem write_pivot_step_nested (pf : PivotField) (fields : List String)
    (sf : String) (hsf : pf.subfield = some sf) (hArr : pf.is_array = true)
    (outer : List (Val × List (Val × Bucket))) (row : Row) :
    write_pivot_step pf fields (.nested outer) row =
      if (substKey row pf.field pf.null_key).truthy = false then
        some (.nested outer)
      else if (substKey row pf.field pf.null_key).hashable = false then none
      else if (substKey row sf pf.null_key).hashable = false then none
      else
        (filter_and_nest_row row fields).map (fun row_data =>
          POut.nested (aset outer (substKey row pf.field pf.null_key)
            (aset ((alookup outer (substKey row pf.field pf.null_key)).getD [])
              (substKey row sf pf.null_key)
              (.arr (armOf (alookup
                  ((alookup outer (substKey row pf.field pf.null_key)).getD [])
                  (substKey row sf pf.null_key)) ++ [row_data]))))) := by
  simp only [write_pivot_step, hsf, hArr, if_true]

theorem write_pivot_step_nested_shape (pf : PivotField) (fields : List String)
    (sf : String) (hsf : pf.subfield = some sf)
    (outer : List (Val × List (Val × Bucket))) (row : Row) (r : POut)
    (h : write_pivot_step pf fields (.nested outer) row = some r) :
    ∃ o, r = POut.nested o := by
  simp only [write_pivot_step, hsf] at h
  by_cases h1 : (substKey row pf.field pf.null_key).truthy = false
  · rw [if_pos h1] at h
    exact ⟨outer, ((Option.some.injEq _ _).mp h).symm⟩
  · rw [if_neg h1] at h
    by_cases h2 : (substKey row pf.field pf.null_key).hashable = false
    · rw [if_pos h2] at h
      simp at h
    · rw [if_neg h2] at h
      by_cases h3 : (substKey row sf pf.null_key).hashable = false
      · rw [if_pos h3] at h
        simp at h
      · rw [if_neg h3] at h
        cases hf : filter_and_nest_row row fields with
        | none =>
          rw [hf] at h
          simp at h
        | some row_data =>
          rw [hf] at h
          simp only [Option.map_some', Option.some.injEq] at h
          by_cases hA : pf.is_array
          · rw [if_pos hA] at h
            exact ⟨_, h.symm⟩
          · rw [if_neg hA] at h
            exact ⟨_, h.symm⟩

theorem pivot_nested_step_mono (pf : PivotField) (fields : List String)
    (sf : String) (hsf : pf.subfield = some sf) (hArr : pf.is_array = true)
    (outer outer' : List (Val × List (Val × Bucket))) (row : Row)
    (hs : write_pivot_step pf fields (.nested outer) row =
      some (.nested outer'))
    (k j : Val) (x : Row) (hx : x ∈ innerArm outer k j) :
    x ∈ innerArm outer' k j := by
  rw [write_pivot_step_nested pf fields sf hsf hArr outer row] at hs
  by_cases h1 : (substKey row pf.field pf.null_key).truthy = false
  · rw [if_pos h1] at hs
    simp only [Option.some.injEq, POut.nested.injEq] at hs
    rw [← hs]
    exact hx
  · rw [if_neg h1] at hs
    by_cases h2 : (substKey row pf.field pf.null_key).hashable = false
    · rw [if_pos h2] at hs
      simp at hs
    · rw [if_neg h2] at hs
      by_cases h3 : (substKey row sf pf.null_key).hashable = false
      · rw [if_pos h3] at hs
        simp at hs
      · rw [if_neg h3] at hs
        cases hf : filter_and_nest_row row fields with
        | none =>
          rw [hf] at hs
          simp at hs
        | some row_data =>
          rw [hf] at hs
          simp only [Option.map_some', Option.some.injEq,
            POut.nested.injEq] at hs
          rw [← hs]
          unfold innerArm at hx ⊢
          by_cases hk : k = substKey row pf.field pf.null_key
          · subst hk
            rw [alookup_aset_self]
            by_cases hj : j = substKey row sf pf.null_key
            · subst hj
              rw [Option.getD_some, alookup_aset_self]
              unfold armOf
              exact List.mem_append_left _ hx
            · rw [Option.getD_some,
                alookup_aset_other _ _ _ _ hj]
              exact hx
          · rw [alookup_aset_other _ _ _ _ hk]
            exact hx

theorem pivot_nested_step_insert (pf : PivotField) (fields : List String)
    (sf : String) (hsf : pf.subfield = some sf) (hArr : pf.is_array = true)
    (outer outer' : List (Val × List (Val × Bucket))) (row : Row)
    (hs : write_pivot_step pf fields (.nested outer) row =
      some (.nested outer'))
    (htr : (substKey row pf.field pf.null_key).truthy = true) :
    projRow row fields ∈
      innerArm outer' (substKey row pf.field pf.null_key)
        (substKey row sf pf.null_key) := by
  rw [write_pivot_step_nested pf fields sf hsf hArr outer row] at hs
  rw [if_neg (by rw [htr]; exact fun hc => Bool.false_ne_true hc.symm)] at hs
  by_cases h2 : (substKey row pf.field pf.null_key).hashable = false
  · rw [if_pos h2] at hs
    simp at hs
  · rw [if_neg h2] at hs
    by_cases h3 : (substKey row sf pf.null_key).hashable = false
    · rw [if_pos h3] at hs
      simp at hs
    · rw [if_neg h3] at hs
      cases hf : filter_and_nest_row row fields with
      | none =>
        rw [hf] at hs
        simp at hs
      | some row_data =>
        rw [hf] at hs
        simp only [Option.map_some', Option.some.injEq,
          POut.nested.injEq] at hs
        rw [← hs]
        unfold innerArm
        rw [alookup_aset_self, Option.getD_some, alookup_aset_self]
        unfold armOf projRow
        rw [hf]
        simp

theorem pivot_nested_fold_mono (pf : PivotField) (fields : List String)
    (sf : String) (hsf : pf.subfield = some sf) (hArr : pf.is_array = true)
    (rows : List Row) :
    ∀ acc outB : List (Val × List (Val × Bucket)),
    rows.foldlM (write_pivot_step pf fields) (POut.nested acc) =
      some (POut.nested outB) →
    ∀ k j : Val, ∀ x : Row, x ∈ innerArm acc k j → x ∈ innerArm outB k j := by
  induction rows with
  | nil =>
    intro acc outB hfold k j x hx
    simp only [List.foldlM_nil, Option.pure_def, Option.some.injEq,
      POut.nested.injEq] at hfold
    rw [← hfold]
    exact hx
  | cons r0 rest ih =>
    intro acc outB hfold k j x hx
    rw [List.foldlM_cons] at hfold
    cases hstep : write_pivot_step pf fields (.nested acc) r0 with
    | none =>
      rw [hstep] at hfold
      simp at hfold
    | some acc1 =>
      obtain ⟨acc1o, rfl⟩ :=
        write_pivot_step_nested_shape pf fields sf hsf acc r0 acc1 hstep
      rw [hstep] at hfold
      exact ih acc1o outB hfold k j x
        (pivot_nested_step_mono pf fields sf hsf hArr acc acc1o r0 hstep k j x hx)

theorem pivot_nested_fold_mem (pf : PivotField) (fields : List String)
    (sf : String) (hsf : pf.subfield = some sf) (hArr : pf.is_array = true)
    (rows : List Row) :
    ∀ acc outB : List (Val × List (Val × Bucket)),
    rows.foldlM (write_pivot_step pf fields) (POut.nested acc) =
      some (POut.nested outB) →
    ∀ row ∈ rows, (substKey row pf.field pf.null_key).truthy = true →
    projRow row fields ∈
      innerArm outB (substKey row pf.field pf.null_key)
        (substKey row sf pf.null_key) := by
  induction rows with
  | nil =>
    intro acc outB hfold row hrow
    simp at hrow
  | cons r0 rest ih =>
    intro acc outB hfold row hrow htr
    rw [List.foldlM_cons] at hfold
    cases hstep : write_pivot_step pf fields (.nested acc) r0 with
    | none =>
      rw [hstep] at hfold
      simp at hfold
    | some acc1 =>
      obtain ⟨acc1o, rfl⟩ :=
        write_pivot_step_nested_shape pf fields sf hsf acc r0 acc1 hstep
      rw [hstep] at hfold
      rcases List.mem_cons.mp hrow with he | hm
      · subst he
        exact pivot_nested_fold_mono pf fields sf hsf hArr rest acc1o outB
          hfold _ _ _
          (pivot_nested_step_insert pf fields sf hsf hArr acc acc1o row
            hstep htr)
      · exact ih acc1o outB hfold row hm htr

/-- C10: in a two-level pivot (array mode) with no declared `null_key`,
a record whose subfield value is empty or missing is *not* dropped at
the inner level — its substituted inner key is `None` and its projection
is grouped into the inner bucket under the `None` key, unlike the outer
level where a falsy key drops the record. -/
theorem claim_C10_two_level_keeps (pf : PivotField) (sf : String)
    (data : List Row) (fields : List String)
    (outer : List (Val × List (Val × Bucket)))
    (hsf : pf.subfield = some sf) (hArr : pf.is_array = true)
    (hnull : pf.null_key = .vnull)
    (hout : write_pivot_data pf data fields = some (.nested outer))
    (row : Row) (hrow : row ∈ data)
    (hokey : (substKey row pf.field pf.null_key).truthy = true)
    (hsub : ((alookup row sf).getD .vnull).truthy = false) :
    substKey row sf pf.null_key = Val.vnull ∧
    projRow row fields ∈
      innerArm outer (substKey row pf.field pf.null_key) Val.vnull := by
  have hkey : substKey row sf pf.null_key = Val.vnull := by
    simp [substKey, hsub, hnull]
  refine ⟨hkey, ?_⟩
  have hinit : write_pivot_data pf data fields =
      data.foldlM (write_pivot_step pf fields) (POut.nested []) := by
    unfold write_pivot_data
    rw [hsf]
  have hmem := pivot_nested_fold_mem pf fields sf hsf hArr data [] outer
    (hinit ▸ hout) row hrow hokey
  rw [hkey] at hmem
  exact hmem

/-- C10, witness: a record with team "A" and no "pos" field is kept in
the two-level pivot, grouped under outer key "A" and inner key `None`. -/
theorem claim_C10_witness :
    substKey [("team", Val.vstr "A"), ("id", Val.vint 1)] "pos" Val.vnull =
      Val.vnull ∧
    projRow [("team", Val.vstr "A"), ("id", Val.vint 1)] ["id"] ∈
      innerArm [(Val.vstr "A", [(Val.vnull, Bucket.arr [[("id", Val.vint 1)]])])]
        (substKey [("team", Val.vstr "A"), ("id", Val.vint 1)] "team" Val.vnull)
        Val.vnull :=
  claim_C10_two_level_keeps ⟨"team", some "pos", "by_team_pos", true, .vnull⟩
    "pos" [[("team", Val.vstr "A"), ("id", Val.vint 1)]] ["id"]
    [(Val.vstr "A", [(Val.vnull, Bucket.arr [[("id", Val.vint 1)]])])]
    rfl rfl rfl (by decide)
    [("team", Val.vstr "A"), ("id", Val.vint 1)] (by decide) (by decide)
    (by decide)

end Registry
